import Mathlib

/-!
# Angle / AngleRange (`main.go`): a shallow embedding and its checked properties

The program computes on Go `float64` values.  They are embedded as the type `F64`:
a finite binary64 number is carried by its exact rational value, and the other
IEEE-754 values (negative zero, the two infinities, NaN) are constructors of
their own.  Every arithmetic operation computes the exact rational result and
rounds it once to binary64 (round to nearest, ties to even, gradual underflow,
overflow to infinity), which is what the hardware does.  Comparisons are exact.
-/

namespace Lab1

/-! ## Binary64 arithmetic -/

/-- A Go `float64`: `fin q` is the finite number of value `q` (`fin 0` is `+0`),
`nzero` is `-0`.  The binary64 numbers are the `fin q` with `Representable q`;
every operation below returns such a value on such arguments. -/
inductive F64 where
  | fin (q : ℚ)
  | nzero
  | pinf
  | ninf
  | nan
  deriving DecidableEq

namespace F64

/-- Two to an integer power, as a rational. -/
def pow2 (z : ℤ) : ℚ :=
  if 0 ≤ z then ((2 ^ z.toNat : ℕ) : ℚ) else 1 / ((2 ^ (-z).toNat : ℕ) : ℚ)

/-- Binary logarithm of a natural number, rounded down, by repeated halving. -/
def log2Fuel : ℕ → ℕ → ℕ
  | 0, _ => 0
  | fuel + 1, n => if n < 2 then 0 else log2Fuel fuel (n / 2) + 1

/-- Position of the leading bit of `n`. -/
def nlog2 (n : ℕ) : ℕ := log2Fuel n n

/-- The binade of a positive rational `a`: the `e` with `2^e ≤ a < 2^(e+1)`. -/
def ilog2 (a : ℚ) : ℤ :=
  let c : ℤ := (nlog2 a.num.natAbs : ℤ) - (nlog2 a.den : ℤ)
  if pow2 c ≤ a then c else c - 1

/-- Round a non-negative rational to the nearest integer, ties to the even one. -/
def rne (s : ℚ) : ℤ :=
  let f : ℤ := ⌊s⌋
  let d : ℚ := s - f
  if d < 1 / 2 then f
  else if 1 / 2 < d then f + 1
  else if f % 2 = 0 then f else f + 1

/-- Exponent of the unit in the last place of the binade of `a > 0`:
52 fraction bits, smallest exponent `-1074` (subnormal numbers). -/
def ulpExp (a : ℚ) : ℤ := max (ilog2 a - 52) (-1074)

/-- Round an exact rational result to binary64: nearest, ties to even,
overflow to the infinities, underflow to the zero of the same sign. -/
def rnd (q : ℚ) : F64 :=
  if q = 0 then fin 0
  else
    let a := |q|
    let p := ulpExp a
    let r : ℚ := (rne (a / pow2 p) : ℚ) * pow2 p
    if pow2 1024 ≤ r then (if q < 0 then ninf else pinf)
    else if r = 0 then (if q < 0 then nzero else fin 0)
    else fin (if q < 0 then -r else r)

/-- Round with the sign to give an exact zero result. -/
def rndS (neg : Bool) (q : ℚ) : F64 :=
  if q = 0 then (if neg then nzero else fin 0) else rnd q

/-- The rational value of a finite number (0 for the others). -/
def val : F64 → ℚ
  | fin q => q
  | _ => 0

/-- Sign bit. -/
def sgn : F64 → Bool
  | fin q => decide (q < 0)
  | nzero => true
  | ninf => true
  | _ => false

def isNaN : F64 → Bool
  | nan => true
  | _ => false

def isInf : F64 → Bool
  | pinf => true
  | ninf => true
  | _ => false

def isZero : F64 → Bool
  | fin q => decide (q = 0)
  | nzero => true
  | _ => false

/-- Finite (neither infinite nor NaN). -/
def isFinite : F64 → Bool
  | fin _ => true
  | nzero => true
  | _ => false

/-- Infinity of the given sign. -/
def infS (neg : Bool) : F64 := if neg then ninf else pinf

/-- Go `x + y`. -/
def add : F64 → F64 → F64
  | nan, _ => nan
  | _, nan => nan
  | pinf, ninf => nan
  | ninf, pinf => nan
  | pinf, _ => pinf
  | _, pinf => pinf
  | ninf, _ => ninf
  | _, ninf => ninf
  | nzero, nzero => nzero
  | x, y => rnd (x.val + y.val)

/-- Go `x - y`. -/
def sub : F64 → F64 → F64
  | nan, _ => nan
  | _, nan => nan
  | pinf, pinf => nan
  | ninf, ninf => nan
  | pinf, _ => pinf
  | _, ninf => pinf
  | ninf, _ => ninf
  | _, pinf => ninf
  | nzero, fin b => if b = 0 then nzero else rnd (-b)
  | x, y => rnd (x.val - y.val)

/-- Go `x * y`. -/
def mul (x y : F64) : F64 :=
  if x.isNaN || y.isNaN then nan
  else if x.isInf || y.isInf then
    (if x.isZero || y.isZero then nan else infS (xor x.sgn y.sgn))
  else rndS (xor x.sgn y.sgn) (x.val * y.val)

/-- Go `x / y`. -/
def div (x y : F64) : F64 :=
  if x.isNaN || y.isNaN then nan
  else if x.isInf then (if y.isInf then nan else infS (xor x.sgn y.sgn))
  else if y.isInf then (if xor x.sgn y.sgn then nzero else fin 0)
  else if y.isZero then (if x.isZero then nan else infS (xor x.sgn y.sgn))
  else rndS (xor x.sgn y.sgn) (x.val / y.val)

/-- Integer part of a rational, rounding toward zero. -/
def truncQ (q : ℚ) : ℤ := if 0 ≤ q then ⌊q⌋ else -⌊-q⌋

/-- Exact remainder of `x / y` with the sign of the dividend. -/
def fmodQ (x y : ℚ) : ℚ := x - y * (truncQ (x / y) : ℚ)

/-- Go `math.Mod(x, y)`: NaN when `x` is infinite or NaN, when `y` is 0 or NaN;
`x` when `y` is infinite; otherwise the remainder of the division truncated
toward zero, with the sign of `x`.  The remainder of two binary64 numbers is a
binary64 number, so the library returns it exactly and nothing is rounded. -/
def mod (x y : F64) : F64 :=
  if x.isNaN || y.isNaN || x.isInf || y.isZero then nan
  else if y.isInf then x
  else
    let r := fmodQ x.val y.val
    if r = 0 then (if x.sgn then nzero else fin 0) else fin r

/-- Go `math.Abs`. -/
def abs : F64 → F64
  | fin q => fin |q|
  | nzero => fin 0
  | pinf => pinf
  | ninf => pinf
  | nan => nan

/-- Go `x < y` (false when either side is NaN; the two zeros are equal). -/
def lt : F64 → F64 → Bool
  | nan, _ => false
  | _, nan => false
  | _, ninf => false
  | pinf, _ => false
  | ninf, _ => true
  | _, pinf => true
  | x, y => decide (x.val < y.val)

/-- Go `x > y`. -/
def gt (x y : F64) : Bool := lt y x

/-- Go `x <= y`. -/
def le : F64 → F64 → Bool
  | nan, _ => false
  | _, nan => false
  | ninf, _ => true
  | _, pinf => true
  | _, ninf => false
  | pinf, _ => false
  | x, y => decide (x.val ≤ y.val)

/-- Go `x == y` (false when either side is NaN; `-0 == +0`). -/
def eq : F64 → F64 → Bool
  | nan, _ => false
  | _, nan => false
  | pinf, pinf => true
  | ninf, ninf => true
  | pinf, _ => false
  | _, pinf => false
  | ninf, _ => false
  | _, ninf => false
  | x, y => decide (x.val = y.val)

/-- Go `x >= y`. -/
def ge (x y : F64) : Bool := le y x

/-- Go `float64(n)` for an integer `n`. -/
def ofInt (n : ℤ) : F64 := rnd (n : ℚ)

/-- The rational `q` is a binary64 number: rounding leaves it as it is. -/
def Representable (q : ℚ) : Prop := rnd q = fin q

instance (q : ℚ) : Decidable (Representable q) := by
  unfold Representable; infer_instance

end F64

open F64

/-! ## The program -/

/-- Go `math.Pi` as a `float64`: the binary64 number nearest to π,
`0x400921FB54442D18`. -/
def PI : F64 := fin (884279719003555 / 281474976710656)

/-- The constant expression `2 * PI`: constant arithmetic is exact and the
result is converted to `float64` once; doubling a binary64 number is exact. -/
def twoPI : F64 := fin (884279719003555 / 140737488355328)

/-- The rational value of `twoPI`. -/
def tau : ℚ := 884279719003555 / 140737488355328

/-- The constant `1e-9` as a `float64`. -/
def tol : F64 := rnd (1 / 1000000000)

/-- The type `Angle`. -/
structure Angle where
  rad : F64
  deriving DecidableEq

/-- The function `normalizeRad`. -/
def normalizeRad (x : F64) : F64 :=
  let t := F64.mod x twoPI
  if F64.lt t (fin 0) then F64.add t twoPI else t

/-- The function `AngleRad`. -/
def AngleRad (r : F64) : Angle := { rad := normalizeRad r }

/-- The function `AngleDeg`. -/
def AngleDeg (d : F64) : Angle := AngleRad (F64.div (F64.mul d PI) (fin 180))

namespace Angle

/-- The method `SetRad`: the receiver after the call. -/
def SetRad (_a : Angle) (r : F64) : Angle := { rad := normalizeRad r }

/-- The method `SetDeg`: the receiver after the call. -/
def SetDeg (_a : Angle) (d : F64) : Angle :=
  { rad := normalizeRad (F64.div (F64.mul d PI) (fin 180)) }

/-- The method `Rad`. -/
def Rad (a : Angle) : F64 := a.rad

/-- The method `Deg`. -/
def Deg (a : Angle) : F64 := F64.div (F64.mul a.rad (fin 180)) PI

/-- The method `Equal`. -/
def Equal (a b : Angle) : Bool :=
  F64.lt (F64.abs (F64.sub (normalizeRad a.rad) (normalizeRad b.rad))) tol

end Angle

/-- A value passed as an empty interface: the type switches of the program tell an
`Angle`, a `float64` and an `int` (a machine integer, carried by its value) from
everything else. -/
inductive Operand where
  | angle (a : Angle)
  | float (v : F64)
  | int (n : ℤ)
  | other

namespace Angle

/-- The method `Add`; `none` is the panic of the `default` case. -/
def Add (a : Angle) : Operand → Option Angle
  | .angle v => some (AngleRad (F64.add a.rad v.rad))
  | .float v => some (AngleRad (F64.add a.rad v))
  | .int v => some (AngleRad (F64.add a.rad (F64.ofInt v)))
  | .other => none

/-- The method `Sub`; `none` is the panic of the `default` case. -/
def Sub (a : Angle) : Operand → Option Angle
  | .angle v => some (AngleRad (F64.sub a.rad v.rad))
  | .float v => some (AngleRad (F64.sub a.rad v))
  | .int v => some (AngleRad (F64.sub a.rad (F64.ofInt v)))
  | .other => none

/-- The method `Mul`. -/
def Mul (a : Angle) (k : F64) : Angle := AngleRad (F64.mul a.rad k)

/-- The method `Div`. -/
def Div (a : Angle) (k : F64) : Angle := AngleRad (F64.div a.rad k)

end Angle

/-- The type `AngleRange`. -/
structure AngleRange where
  Start : Angle
  End : Angle
  IncludeStart : Bool
  IncludeEnd : Bool
  deriving DecidableEq

/-- The function `convertToAngle`; `none` is the panic of the `default` case. -/
def convertToAngle : Operand → Option Angle
  | .angle x => some x
  | .float x => some (AngleRad x)
  | .int x => some (AngleRad (F64.ofInt x))
  | .other => none

/-- The function `NewAngleRange`. -/
def NewAngleRange (start stop : Operand) (includeStart includeEnd : Bool) :
    Option AngleRange :=
  match convertToAngle start, convertToAngle stop with
  | some s, some e =>
      some { Start := s, End := e, IncludeStart := includeStart, IncludeEnd := includeEnd }
  | _, _ => none

namespace AngleRange

/-- The method `Len`. -/
def Len (r : AngleRange) : F64 := normalizeRad (F64.sub r.End.Rad r.Start.Rad)

/-- The method `ContainsAngle`; the bounds check nested in `if s < e` is the first
condition, each `return false` a `false` branch. -/
def ContainsAngle (r : AngleRange) (a : Angle) : Bool :=
  let s := r.Start.Rad
  let e := r.End.Rad
  let x := normalizeRad a.Rad
  if F64.lt s e && (F64.lt x s || F64.gt x e) then false
  else if F64.eq x s && !r.IncludeStart then false
  else if F64.eq x e && !r.IncludeEnd then false
  else true

/-- The method `ContainsRange`. -/
def ContainsRange (r b : AngleRange) : Bool :=
  r.ContainsAngle b.Start && r.ContainsAngle b.End

/-- The method `Add`: the returned slice; `none` is a panic. -/
def Add (r : AngleRange) (x : Angle) : Option (List AngleRange) :=
  match r.Start.Add (.angle x), r.End.Add (.angle x) with
  | some s, some e =>
      (NewAngleRange (.angle s) (.angle e) r.IncludeStart r.IncludeEnd).map (fun n => [n])
  | _, _ => none

/-- The method `Sub`: the returned slice; `none` is a panic. -/
def Sub (r : AngleRange) (x : Angle) : Option (List AngleRange) :=
  match r.Start.Sub (.angle x), r.End.Sub (.angle x) with
  | some s, some e =>
      (NewAngleRange (.angle s) (.angle e) r.IncludeStart r.IncludeEnd).map (fun n => [n])
  | _, _ => none

end AngleRange

/-- The invariant of `Angle`: `0 <= rad` and `rad < 2π`. -/
def Angle.Normalized (a : Angle) : Prop :=
  F64.le (fin 0) a.rad = true ∧ F64.lt a.rad twoPI = true

instance (a : Angle) : Decidable a.Normalized := by
  unfold Angle.Normalized; infer_instance

/-- The range `r` of `main`: `NewAngleRange(0, PI, true, false)`. -/
def rangeMain : AngleRange :=
  { Start := AngleRad (F64.ofInt 0), End := AngleRad PI, IncludeStart := true, IncludeEnd := false }

/-- The wrapping range `NewAngleRange(PI, 0, true, true)`. -/
def rangeWrap : AngleRange :=
  { Start := AngleRad PI, End := AngleRad (F64.ofInt 0), IncludeStart := true, IncludeEnd := true }

/-- The untyped constant `math.Pi` of the Go library, exact as written there. -/
def piExact : ℚ :=
  314159265358979323846264338327950288419716939937510582097494459 /
    100000000000000000000000000000000000000000000000000000000000000

/-- Six digits, zero-padded on the left. -/
def pad6 (n : ℕ) : String :=
  String.mk (List.replicate (6 - (toString n).length) '0') ++ toString n

/-- The verb `%.6f` of `fmt.Sprintf` on a `float64`: the exact value rounded to six
decimals (nearest, ties to even), with the sign; `NaN`, `+Inf`, `-Inf` for the
others (as documented for the Go library). -/
def fmtF6 : F64 → String
  | F64.nan => "NaN"
  | F64.pinf => "+Inf"
  | F64.ninf => "-Inf"
  | F64.nzero => "-0.000000"
  | F64.fin q =>
      (if q < 0 then "-" else "") ++
        toString ((F64.rne (|q| * 1000000)).toNat / 1000000) ++ "." ++
        pad6 ((F64.rne (|q| * 1000000)).toNat % 1000000)

/-- The method `Angle.String`: `Sprintf("%.6f rad (%.6f°)", a.rad, a.Deg())`. -/
def Angle.String (a : Angle) : String :=
  fmtF6 a.rad ++ " rad (" ++ fmtF6 a.Deg ++ "°)"

/-- The method `AngleRange.String`: `Sprintf("%s%s, %s%s", lb, Start, End, rb)`. -/
def AngleRange.String (r : AngleRange) : String :=
  (if r.IncludeStart then "[" else "(") ++ r.Start.String ++ ", " ++ r.End.String ++
    (if r.IncludeEnd then "]" else ")")

/-- The range `NewAngleRange(0, PI, true, true)`. -/
def rangeClosed : AngleRange :=
  { Start := AngleRad (F64.ofInt 0), End := AngleRad PI, IncludeStart := true, IncludeEnd := true }

/-- The wrapping range `NewAngleRange(3.0, 1.0, true, true)`. -/
def rangeThreeOne : AngleRange :=
  { Start := AngleRad (fin 3), End := AngleRad (fin 1), IncludeStart := true, IncludeEnd := true }

/-- The range `NewAngleRange(0.0, 0.1, true, true)`. -/
def rangeTenth : AngleRange :=
  { Start := AngleRad (fin 0), End := AngleRad (fin (3602879701896397 / 36028797018963968)),
    IncludeStart := true, IncludeEnd := true }

/-- A raw value that `normalizeRad` brings into `[0, 2π)`: finite, with a remainder
`t = Mod(raw, 2π)` such that `t >= 0` or `t < -2^-51`. -/
def RawSafe (raw : F64) : Prop :=
  F64.isFinite raw = true ∧
    (F64.le (fin 0) (F64.mod raw twoPI) = true ∨
     F64.lt (F64.mod raw twoPI) (fin (-(F64.pow2 (-51)))) = true)

instance (raw : F64) : Decidable (RawSafe raw) := by
  unfold RawSafe; infer_instance

/-- The angle `x` of `main`: `Angle` with `rad: 3.141592`. -/
def angleMain : Angle := { rad := F64.rnd (3141592 / 1000000) }

/-! ## Facts about the arithmetic -/

namespace F64

theorem pow2_eq (z : ℤ) : pow2 z = (2 : ℚ) ^ z := by
  unfold pow2
  split_ifs with h
  · have hz : z = (z.toNat : ℤ) := (Int.toNat_of_nonneg h).symm
    conv_rhs => rw [hz]
    rw [zpow_natCast]; push_cast; rfl
  · have h0 : 0 ≤ -z := by omega
    have hz : z = -((-z).toNat : ℤ) := by rw [Int.toNat_of_nonneg h0]; ring
    conv_rhs => rw [hz]
    rw [zpow_neg, zpow_natCast]; push_cast; simp

theorem pow2_pos (z : ℤ) : 0 < pow2 z := by
  rw [pow2_eq]; positivity

theorem pow2_add (a b : ℤ) : pow2 (a + b) = pow2 a * pow2 b := by
  simp only [pow2_eq]; exact zpow_add₀ (by norm_num) a b

theorem pow2_le_pow2 {a b : ℤ} (h : a ≤ b) : pow2 a ≤ pow2 b := by
  simp only [pow2_eq]; exact zpow_le_zpow_right₀ (by norm_num) h

theorem pow2_lt_pow2 {a b : ℤ} (h : a < b) : pow2 a < pow2 b := by
  simp only [pow2_eq]; exact zpow_lt_zpow_right₀ (by norm_num) h

theorem log2Fuel_spec : ∀ (fuel n : ℕ), n ≤ fuel → 0 < n →
    2 ^ log2Fuel fuel n ≤ n ∧ n < 2 ^ (log2Fuel fuel n + 1) := by
  intro fuel
  induction fuel with
  | zero => intro n h1 h2; omega
  | succ f ih =>
    intro n h1 h2
    unfold log2Fuel
    split_ifs with h
    · constructor
      · simpa using h2
      · simpa using h
    · have h3 : n / 2 ≤ f := by omega
      have h4 : 0 < n / 2 := by omega
      obtain ⟨i1, i2⟩ := ih (n / 2) h3 h4
      constructor
      · rw [pow_succ]; omega
      · rw [pow_succ]; omega

theorem nlog2_spec (n : ℕ) (h : 0 < n) : 2 ^ nlog2 n ≤ n ∧ n < 2 ^ (nlog2 n + 1) :=
  log2Fuel_spec n n le_rfl h

theorem ilog2_spec (a : ℚ) (ha : 0 < a) :
    pow2 (ilog2 a) ≤ a ∧ a < pow2 (ilog2 a + 1) := by
  have hnum : 0 < a.num := Rat.num_pos.mpr ha
  have hden : 0 < a.den := a.den_pos
  have hnat : 0 < a.num.natAbs := Int.natAbs_pos.mpr hnum.ne'
  obtain ⟨n1, n2⟩ := nlog2_spec a.num.natAbs hnat
  obtain ⟨d1, d2⟩ := nlog2_spec a.den hden
  have hcast : ((a.num.natAbs : ℕ) : ℚ) = (a.num : ℚ) := by
    have h1 : ((a.num.natAbs : ℕ) : ℤ) = a.num := Int.natAbs_of_nonneg hnum.le
    rw [← Int.cast_natCast, h1]
  have hdq : (0 : ℚ) < (a.den : ℚ) := by exact_mod_cast hden
  have ha_eq : a = (a.num : ℚ) / (a.den : ℚ) := (Rat.num_div_den a).symm
  have N1 : (2 : ℚ) ^ (nlog2 a.num.natAbs) ≤ (a.num : ℚ) := by
    rw [← hcast]; exact_mod_cast n1
  have N2 : (a.num : ℚ) < (2 : ℚ) ^ (nlog2 a.num.natAbs + 1) := by
    rw [← hcast]; exact_mod_cast n2
  have D1 : (2 : ℚ) ^ (nlog2 a.den) ≤ (a.den : ℚ) := by exact_mod_cast d1
  have D2 : (a.den : ℚ) < (2 : ℚ) ^ (nlog2 a.den + 1) := by exact_mod_cast d2
  set L1 := nlog2 a.num.natAbs with hL1
  set L2 := nlog2 a.den with hL2
  have P1 : (0 : ℚ) < (2 : ℚ) ^ L1 := by positivity
  have P2 : (0 : ℚ) < (2 : ℚ) ^ L2 := by positivity
  have e1 : pow2 ((L1 : ℤ) - (L2 : ℤ) + 1) = (2 : ℚ) ^ (L1 + 1) / (2 : ℚ) ^ L2 := by
    rw [pow2_eq, show (L1 : ℤ) - (L2 : ℤ) + 1 = ((L1 + 1 : ℕ) : ℤ) - (L2 : ℤ) by push_cast; ring,
      zpow_sub₀ (by norm_num), zpow_natCast, zpow_natCast]
  have e2 : pow2 ((L1 : ℤ) - (L2 : ℤ) - 1) = (2 : ℚ) ^ L1 / (2 : ℚ) ^ (L2 + 1) := by
    rw [pow2_eq, show (L1 : ℤ) - (L2 : ℤ) - 1 = (L1 : ℤ) - ((L2 + 1 : ℕ) : ℤ) by push_cast; ring,
      zpow_sub₀ (by norm_num), zpow_natCast, zpow_natCast]
  have up : a < pow2 ((L1 : ℤ) - (L2 : ℤ) + 1) := by
    rw [e1, ha_eq, div_lt_div_iff₀ hdq P2]
    calc (a.num : ℚ) * 2 ^ L2 < 2 ^ (L1 + 1) * 2 ^ L2 := by
          exact mul_lt_mul_of_pos_right N2 P2
      _ ≤ 2 ^ (L1 + 1) * (a.den : ℚ) := by
          exact mul_le_mul_of_nonneg_left D1 (by positivity)
  have lo : pow2 ((L1 : ℤ) - (L2 : ℤ) - 1) ≤ a := by
    rw [e2, ha_eq, div_le_div_iff₀ (by positivity) hdq]
    calc (2 : ℚ) ^ L1 * (a.den : ℚ) ≤ 2 ^ L1 * 2 ^ (L2 + 1) := by
          exact mul_le_mul_of_nonneg_left D2.le P1.le
      _ ≤ (a.num : ℚ) * 2 ^ (L2 + 1) := by
          exact mul_le_mul_of_nonneg_right N1 (by positivity)
  unfold ilog2
  simp only [← hL1, ← hL2]
  split_ifs with h
  · exact ⟨h, up⟩
  · refine ⟨lo, ?_⟩
    rw [show (L1 : ℤ) - (L2 : ℤ) - 1 + 1 = (L1 : ℤ) - (L2 : ℤ) by ring]
    exact not_le.mp h

/-- The binade exponent is the unique one. -/
theorem ilog2_lt_of_lt (a : ℚ) (ha : 0 < a) (k : ℤ) (h : a < pow2 k) : ilog2 a < k := by
  by_contra hc
  have h1 : k ≤ ilog2 a := not_lt.mp hc
  have := (ilog2_spec a ha).1
  have := pow2_le_pow2 h1
  linarith

theorem ilog2_ge_of_le (a : ℚ) (ha : 0 < a) (k : ℤ) (h : pow2 k ≤ a) : k ≤ ilog2 a := by
  by_contra hc
  have h1 : ilog2 a + 1 ≤ k := by omega
  have := (ilog2_spec a ha).2
  have := pow2_le_pow2 h1
  linarith

theorem rne_err (s : ℚ) : |(rne s : ℚ) - s| ≤ 1 / 2 := by
  have h1 : ((⌊s⌋ : ℤ) : ℚ) ≤ s := Int.floor_le s
  have h2 : s < ((⌊s⌋ : ℤ) : ℚ) + 1 := Int.lt_floor_add_one s
  unfold rne
  simp only
  rw [abs_le]
  split_ifs with c1 c2 c3
  · constructor <;> linarith
  · push_cast; constructor <;> linarith
  · have : s - ((⌊s⌋ : ℤ) : ℚ) = 1 / 2 := le_antisymm (not_lt.mp c2) (not_lt.mp c1)
    constructor <;> linarith
  · have : s - ((⌊s⌋ : ℤ) : ℚ) = 1 / 2 := le_antisymm (not_lt.mp c2) (not_lt.mp c1)
    push_cast; constructor <;> linarith

theorem rne_intCast (n : ℤ) : rne (n : ℚ) = n := by
  unfold rne
  simp

theorem le_rne (s : ℚ) (n : ℤ) (h : (n : ℚ) ≤ s) : n ≤ rne s := by
  have h1 : n ≤ ⌊s⌋ := Int.le_floor.mpr h
  unfold rne
  simp only
  split_ifs <;> omega

theorem rne_le (s : ℚ) (n : ℤ) (h : s ≤ (n : ℚ)) : rne s ≤ n := by
  have h1 : ((⌊s⌋ : ℤ) : ℚ) ≤ s := Int.floor_le s
  have h0 : ⌊s⌋ ≤ n := by exact_mod_cast h1.trans h
  by_cases hn : ⌊s⌋ = n
  · have hs : s = (n : ℚ) := le_antisymm h (by rw [← hn]; exact h1)
    rw [hs, rne_intCast]
  · have : ⌊s⌋ + 1 ≤ n := by omega
    unfold rne
    simp only
    split_ifs <;> omega

theorem pow2_half (z : ℤ) : pow2 z / 2 = pow2 (z - 1) := by
  have h := pow2_add (z - 1) 1
  rw [show z - 1 + 1 = z by ring] at h
  have h1 : pow2 1 = 2 := by decide!
  rw [h, h1]; ring

/-- What rounding computes on a non-zero rational: a multiple `r` of the unit
in the last place, within half a unit of `|q|`, with the sign of `q`. -/
theorem rnd_spec (q : ℚ) (hq : q ≠ 0) :
    ∃ r : ℚ, 0 ≤ r ∧ |r - (|q|)| ≤ pow2 (ulpExp |q|) / 2 ∧
      (∃ m : ℤ, 0 ≤ m ∧ r = (m : ℚ) * pow2 (ulpExp |q|)) ∧
      rnd q = (if pow2 1024 ≤ r then (if q < 0 then ninf else pinf)
        else if r = 0 then (if q < 0 then nzero else fin 0)
        else fin (if q < 0 then -r else r)) := by
  have hp := pow2_pos (ulpExp |q|)
  have ha : 0 < |q| := abs_pos.mpr hq
  have hs : (0 : ℚ) ≤ |q| / pow2 (ulpExp |q|) := div_nonneg ha.le hp.le
  have hm : (0 : ℤ) ≤ rne (|q| / pow2 (ulpExp |q|)) := le_rne _ 0 (by simpa using hs)
  refine ⟨(rne (|q| / pow2 (ulpExp |q|)) : ℚ) * pow2 (ulpExp |q|), ?_, ?_, ⟨_, hm, rfl⟩, ?_⟩
  · exact mul_nonneg (by exact_mod_cast hm) hp.le
  · have e := rne_err (|q| / pow2 (ulpExp |q|))
    have : (rne (|q| / pow2 (ulpExp |q|)) : ℚ) * pow2 (ulpExp |q|) - |q| =
        ((rne (|q| / pow2 (ulpExp |q|)) : ℚ) - |q| / pow2 (ulpExp |q|)) * pow2 (ulpExp |q|) := by
      field_simp
    rw [this, abs_mul, abs_of_pos hp]
    calc _ ≤ 1 / 2 * pow2 (ulpExp |q|) := mul_le_mul_of_nonneg_right e hp.le
      _ = pow2 (ulpExp |q|) / 2 := by ring
  · unfold rnd
    rw [if_neg hq]

theorem ulpExp_le (a : ℚ) (ha : 0 < a) (k : ℤ) (hk : -1021 ≤ k) (h : a < pow2 k) :
    ulpExp a ≤ k - 53 := by
  have := ilog2_lt_of_lt a ha k h
  unfold ulpExp
  omega

/-- Rounding a rational below `2^k` in magnitude (no overflow) gives a finite
number within `2^(k-54)` of it, of the same sign. -/
theorem rnd_fin_err (q : ℚ) (k : ℤ) (hk1 : -1021 ≤ k) (hk2 : k ≤ 1023) (hq : |q| < pow2 k) :
    isFinite (rnd q) = true ∧ |val (rnd q) - q| ≤ pow2 (k - 54) ∧
      (0 ≤ q → 0 ≤ val (rnd q)) ∧ (q ≤ 0 → val (rnd q) ≤ 0) := by
  by_cases h0 : q = 0
  · subst h0
    have : rnd 0 = fin 0 := by unfold rnd; simp
    rw [this]
    refine ⟨rfl, ?_, fun _ => le_rfl, fun _ => le_rfl⟩
    simp [val]; exact (pow2_pos _).le
  · obtain ⟨r, hr0, herr, -, hrnd⟩ := rnd_spec q h0
    have ha : 0 < |q| := abs_pos.mpr h0
    have hu := ulpExp_le |q| ha k hk1 hq
    have hbound : pow2 (ulpExp |q|) / 2 ≤ pow2 (k - 54) := by
      rw [pow2_half]; exact pow2_le_pow2 (by omega)
    have herr2 : |r - (|q|)| ≤ pow2 (k - 54) := herr.trans hbound
    have hsmall : pow2 (k - 54) ≤ pow2 1023 := pow2_le_pow2 (by omega)
    have hk3 : pow2 k ≤ pow2 1023 := pow2_le_pow2 hk2
    have h1024 : pow2 1024 = pow2 1023 + pow2 1023 := by
      have := pow2_add 1023 1
      have h1 : pow2 1 = 2 := by decide!
      rw [show (1023 : ℤ) + 1 = 1024 by norm_num, h1] at this
      rw [this]; ring
    have hlt : ¬ pow2 1024 ≤ r := by
      have := (abs_le.mp herr2).2
      rw [h1024]; linarith
    rw [hrnd, if_neg hlt]
    rcases lt_or_gt_of_ne h0 with hneg | hpos
    · have habs : |q| = -q := abs_of_neg hneg
      rw [habs] at herr2
      simp only [if_pos hneg]
      split_ifs with hr
      · subst hr
        refine ⟨rfl, ?_, fun h => le_rfl, fun _ => le_rfl⟩
        simp only [val]
        rw [show (0 : ℚ) - q = -(0 - -q) by ring, abs_neg]; exact herr2
      · refine ⟨rfl, ?_, fun h => absurd hneg (not_lt.mpr h), fun _ => by simp [val]; exact hr0⟩
        simp only [val]
        rw [show -r - q = -(r - -q) by ring, abs_neg]; exact herr2
    · have habs : |q| = q := abs_of_pos hpos
      rw [habs] at herr2
      have hn : ¬ q < 0 := not_lt.mpr hpos.le
      simp only [if_neg hn]
      split_ifs with hr
      · subst hr
        exact ⟨rfl, by simpa [val] using herr2, fun _ => le_rfl, fun _ => le_rfl⟩
      · exact ⟨rfl, by simpa [val] using herr2, fun _ => by simpa [val] using hr0,
          fun h => absurd hpos (not_lt.mpr h)⟩

theorem truncQ_nonneg (q : ℚ) (h : 0 ≤ q) :
    0 ≤ truncQ q ∧ (truncQ q : ℚ) ≤ q ∧ q < (truncQ q : ℚ) + 1 := by
  unfold truncQ
  rw [if_pos h]
  exact ⟨Int.floor_nonneg.mpr h, Int.floor_le q, Int.lt_floor_add_one q⟩

theorem truncQ_neg (q : ℚ) (h : q < 0) :
    truncQ q ≤ 0 ∧ q ≤ (truncQ q : ℚ) ∧ (truncQ q : ℚ) - 1 < q := by
  unfold truncQ
  rw [if_neg (not_le.mpr h)]
  have h1 : (0 : ℚ) ≤ -q := by linarith
  have h2 := Int.floor_le (-q)
  have h3 := Int.lt_floor_add_one (-q)
  have h4 : 0 ≤ ⌊-q⌋ := Int.floor_nonneg.mpr h1
  refine ⟨by omega, ?_, ?_⟩
  · push_cast; linarith
  · push_cast; linarith

/-- The remainder of a non-negative dividend lies in `[0, y)`. -/
theorem fmodQ_nonneg (x y : ℚ) (hy : 0 < y) (hx : 0 ≤ x) :
    0 ≤ fmodQ x y ∧ fmodQ x y < y := by
  obtain ⟨-, h2, h3⟩ := truncQ_nonneg (x / y) (div_nonneg hx hy.le)
  rw [le_div_iff₀ hy] at h2
  rw [div_lt_iff₀ hy] at h3
  unfold fmodQ
  constructor <;> nlinarith

/-- The remainder of a negative dividend lies in `(-y, 0]`. -/
theorem fmodQ_neg (x y : ℚ) (hy : 0 < y) (hx : x < 0) :
    -y < fmodQ x y ∧ fmodQ x y ≤ 0 := by
  obtain ⟨-, h2, h3⟩ := truncQ_neg (x / y) (div_neg_of_neg_of_pos hx hy)
  rw [div_le_iff₀ hy] at h2
  rw [lt_div_iff₀ hy] at h3
  unfold fmodQ
  constructor <;> nlinarith

/-- A dividend already in `[0, y)` is its own remainder. -/
theorem fmodQ_of_lt (x y : ℚ) (hx : 0 ≤ x) (hxy : x < y) : fmodQ x y = x := by
  have hy : 0 < y := lt_of_le_of_lt hx hxy
  have h0 : 0 ≤ x / y := div_nonneg hx hy.le
  have h1 : x / y < 1 := (div_lt_one hy).mpr hxy
  have : truncQ (x / y) = 0 := by
    unfold truncQ
    rw [if_pos h0]
    exact Int.floor_eq_zero_iff.mpr ⟨h0, h1⟩
  unfold fmodQ
  rw [this]; simp

/-- A dividend in `(-y, 0)` is its own remainder. -/
theorem fmodQ_of_neg_lt (x y : ℚ) (hx : x < 0) (hxy : -y < x) : fmodQ x y = x := by
  have hy : 0 < y := by linarith
  have h0 : x / y < 0 := div_neg_of_neg_of_pos hx hy
  have h1 : -(x / y) < 1 := by
    rw [← neg_div, div_lt_one hy]; linarith
  have : truncQ (x / y) = 0 := by
    unfold truncQ
    rw [if_neg (not_le.mpr h0)]
    have : ⌊-(x / y)⌋ = 0 := Int.floor_eq_zero_iff.mpr ⟨by linarith, h1⟩
    rw [this]; rfl
  unfold fmodQ
  rw [this]; simp

theorem fmodQ_zero (y : ℚ) : fmodQ 0 y = 0 := by
  unfold fmodQ truncQ; simp

theorem fmodQ_eq (x y : ℚ) : ∃ k : ℤ, fmodQ x y = x - y * (k : ℚ) := ⟨_, rfl⟩

end F64

theorem tau_pos : 0 < tau := by unfold tau; norm_num

theorem tau_lt : tau < 6284 / 1000 := by unfold tau; norm_num

theorem tau_gt : 6283 / 1000 < tau := by unfold tau; norm_num

theorem twoPI_eq : twoPI = fin tau := rfl

namespace F64

theorem mod_fin_twoPI (q : ℚ) :
    mod (fin q) twoPI =
      if fmodQ q tau = 0 then (if q < 0 then nzero else fin 0) else fin (fmodQ q tau) := by
  have h : ¬ tau = 0 := tau_pos.ne'
  simp [mod, twoPI_eq, isNaN, isInf, isZero, val, sgn, h]

theorem mod_nzero_twoPI : mod nzero twoPI = nzero := by
  have h : ¬ tau = 0 := tau_pos.ne'
  simp [mod, twoPI_eq, isNaN, isInf, isZero, val, sgn, h, fmodQ_zero]

end F64

/-- The value `normalizeRad` returns on a finite number, by the sign of the
remainder. -/
theorem normalizeRad_fin (q : ℚ) :
    normalizeRad (fin q) =
      if fmodQ q tau < 0 then rnd (fmodQ q tau + tau)
      else if fmodQ q tau = 0 then (if q < 0 then nzero else fin 0)
      else fin (fmodQ q tau) := by
  unfold normalizeRad
  simp only [mod_fin_twoPI]
  by_cases h0 : fmodQ q tau = 0
  · simp [h0, F64.lt, val]
    split_ifs <;> simp [F64.lt, val]
  · simp only [if_neg h0]
    by_cases h1 : fmodQ q tau < 0
    · simp [h1, F64.lt, val, F64.add, twoPI_eq]
    · simp [h1, F64.lt, val, h0]

theorem normalizeRad_nzero : normalizeRad nzero = nzero := by
  unfold normalizeRad
  simp [mod_nzero_twoPI, F64.lt, val]

theorem normalizeRad_nan : normalizeRad nan = nan := by
  simp [normalizeRad, F64.mod, isNaN, F64.lt]

theorem normalizeRad_pinf : normalizeRad pinf = nan := by
  simp [normalizeRad, F64.mod, isNaN, isInf, F64.lt]

theorem normalizeRad_ninf : normalizeRad ninf = nan := by
  simp [normalizeRad, F64.mod, isNaN, isInf, F64.lt]

/-- On a finite number `normalizeRad` returns a finite number: the remainder `t`
itself when `t ≥ 0`, and otherwise the rounded sum `t + 2π`, which is
non-negative and within `2^-51` of the exact sum. -/
theorem normalizeRad_val (x : F64) (h : isFinite x = true) :
    isFinite (normalizeRad x) = true ∧
    (0 ≤ fmodQ x.val tau → val (normalizeRad x) = fmodQ x.val tau) ∧
    (fmodQ x.val tau < 0 →
      |val (normalizeRad x) - (fmodQ x.val tau + tau)| ≤ pow2 (-51) ∧
      0 ≤ val (normalizeRad x)) := by
  cases x with
  | fin q =>
    simp only [val]
    rw [normalizeRad_fin]
    by_cases h1 : fmodQ q tau < 0
    · simp only [if_pos h1]
      have hq : q < 0 := by
        by_contra hc
        have := (fmodQ_nonneg q tau tau_pos (not_lt.mp hc)).1
        linarith
      have hr := fmodQ_neg q tau tau_pos hq
      have h8 : pow2 3 = 8 := by decide!
      have habs : |fmodQ q tau + tau| < pow2 3 := by
        rw [h8, abs_lt]
        have := tau_lt
        constructor <;> linarith
      obtain ⟨f1, f2, f3, -⟩ := rnd_fin_err (fmodQ q tau + tau) 3 (by norm_num) (by norm_num) habs
      refine ⟨f1, fun h => absurd h1 (not_lt.mpr h), fun _ => ⟨?_, f3 (by linarith)⟩⟩
      simpa using f2
    · simp only [if_neg h1]
      split_ifs with h2 h3
      · exact ⟨rfl, fun _ => by simp [val, h2], fun h => absurd h h1⟩
      · exact ⟨rfl, fun _ => by simp [val, h2], fun h => absurd h h1⟩
      · exact ⟨rfl, fun _ => rfl, fun h => absurd h h1⟩
  | nzero =>
    rw [normalizeRad_nzero]
    simp [val, isFinite, fmodQ_zero]
  | pinf => simp [isFinite] at h
  | ninf => simp [isFinite] at h
  | nan => simp [isFinite] at h

theorem normalizeRad_not_finite (x : F64) (h : isFinite x = false) : normalizeRad x = nan := by
  cases x with
  | fin q => simp [isFinite] at h
  | nzero => simp [isFinite] at h
  | pinf => exact normalizeRad_pinf
  | ninf => exact normalizeRad_ninf
  | nan => exact normalizeRad_nan

namespace F64

theorem isNaN_of_isFinite (x : F64) (h : isFinite x = true) : isNaN x = false := by
  cases x <;> simp_all [isFinite, isNaN]

/-- For numbers that are not NaN, `x < y` fails exactly when `y <= x`. -/
theorem lt_false_iff_le (x y : F64) (hx : isNaN x = false) (hy : isNaN y = false) :
    lt x y = false ↔ le y x = true := by
  cases x <;> cases y <;> simp_all [lt, le, isNaN, val]

theorem lt_isNaN_left (x y : F64) (h : lt x y = true) : isNaN x = false := by
  cases x <;> cases y <;> simp_all [lt, isNaN]

theorem lt_isNaN_right (x y : F64) (h : lt x y = true) : isNaN y = false := by
  cases x <;> cases y <;> simp_all [lt, isNaN]

theorem le_isNaN_left (x y : F64) (h : le x y = true) : isNaN x = false := by
  cases x <;> cases y <;> simp_all [le, isNaN]

theorem le_isNaN_right (x y : F64) (h : le x y = true) : isNaN y = false := by
  cases x <;> cases y <;> simp_all [le, isNaN]

theorem lt_false_of_le (x y : F64) (h : le x y = true) : lt y x = false :=
  (lt_false_iff_le y x (le_isNaN_right x y h) (le_isNaN_left x y h)).mpr h

theorem lt_false_of_eq (x y : F64) (h : eq x y = true) : lt x y = false := by
  cases x <;> cases y <;> simp_all [lt, eq, val]

end F64

/-- A number with `0 <= x < 2π` is left unchanged by `normalizeRad`. -/
theorem normalizeRad_of_range (x : F64) (h0 : F64.le (fin 0) x = true)
    (h1 : F64.lt x twoPI = true) : normalizeRad x = x := by
  cases x with
  | fin q =>
    have a0 : 0 ≤ q := by simpa [F64.le, val] using h0
    have a1 : q < tau := by simpa [F64.lt, val, twoPI_eq] using h1
    rw [normalizeRad_fin, fmodQ_of_lt q tau a0 a1]
    rw [if_neg (not_lt.mpr a0)]
    split_ifs with c1 c2
    · exact absurd c2 (not_lt.mpr a0)
    · rw [c1]
    · rfl
  | nzero => exact normalizeRad_nzero
  | pinf => simp [F64.lt, twoPI_eq] at h1
  | ninf => simp [F64.le] at h0
  | nan => simp [F64.le] at h0

namespace F64

theorem le_iff_val (x y : F64) (hx : isFinite x = true) (hy : isFinite y = true) :
    le x y = true ↔ x.val ≤ y.val := by
  cases x <;> cases y <;> simp_all [le, isFinite, val]

theorem lt_iff_val (x y : F64) (hx : isFinite x = true) (hy : isFinite y = true) :
    lt x y = true ↔ x.val < y.val := by
  cases x <;> cases y <;> simp_all [lt, isFinite, val]

/-- The remainder by `2π` of a finite number is finite, with the exact value. -/
theorem mod_twoPI_val (x : F64) (h : isFinite x = true) :
    isFinite (mod x twoPI) = true ∧ val (mod x twoPI) = fmodQ x.val tau := by
  cases x with
  | fin q =>
    rw [mod_fin_twoPI]
    split_ifs with h1 h2
    · exact ⟨rfl, by simp [val, h1]⟩
    · exact ⟨rfl, by simp [val, h1]⟩
    · exact ⟨rfl, rfl⟩
  | nzero => rw [mod_nzero_twoPI]; simp [isFinite, val, fmodQ_zero]
  | pinf => simp [isFinite] at h
  | ninf => simp [isFinite] at h
  | nan => simp [isFinite] at h

theorem fmodQ_lt (x y : ℚ) (hy : 0 < y) : fmodQ x y < y := by
  rcases le_or_lt 0 x with h | h
  · exact (fmodQ_nonneg x y hy h).2
  · have := (fmodQ_neg x y hy h).2
    linarith

theorem fmodQ_gt (x y : ℚ) (hy : 0 < y) : -y < fmodQ x y := by
  rcases le_or_lt 0 x with h | h
  · have := (fmodQ_nonneg x y hy h).1
    linarith
  · exact (fmodQ_neg x y hy h).1

end F64

namespace F64

theorem pow2_of_nonneg (z : ℤ) (h : 0 ≤ z) : pow2 z = (((2 : ℤ) ^ z.toNat : ℤ) : ℚ) := by
  unfold pow2
  rw [if_pos h]; push_cast; rfl

theorem rnd_zero : rnd 0 = fin 0 := by
  unfold rnd; simp

/-- A multiple `m * 2^p` of a power of two with `|m| < 2^53`, `p >= -1074`, below
`2^1024` in magnitude, is a binary64 number. -/
theorem rnd_of_dyadic (m p : ℤ) (hm : |m| < 2 ^ 53) (hp : -1074 ≤ p)
    (hq : |(m : ℚ) * pow2 p| < pow2 1024) : rnd ((m : ℚ) * pow2 p) = fin ((m : ℚ) * pow2 p) := by
  by_cases h0 : (m : ℚ) * pow2 p = 0
  · rw [h0, rnd_zero]
  · have hpp := pow2_pos p
    have ha : 0 < |(m : ℚ) * pow2 p| := abs_pos.mpr h0
    have habs : |(m : ℚ) * pow2 p| = ((|m| : ℤ) : ℚ) * pow2 p := by
      rw [abs_mul, abs_of_pos hpp]; push_cast; rfl
    have hlt : |(m : ℚ) * pow2 p| < pow2 (53 + p) := by
      rw [habs, pow2_add]
      have h53 : pow2 53 = ((2 ^ 53 : ℤ) : ℚ) := by decide!
      rw [h53]
      exact mul_lt_mul_of_pos_right (by exact_mod_cast hm) hpp
    have hil := ilog2_lt_of_lt _ ha _ hlt
    have hu : ulpExp |(m : ℚ) * pow2 p| ≤ p := by unfold ulpExp; omega
    set u := ulpExp |(m : ℚ) * pow2 p| with hu_def
    have hpu := pow2_pos u
    have hsplit : pow2 p = pow2 (p - u) * pow2 u := by
      rw [← pow2_add]; congr 1; ring
    have hint : |(m : ℚ) * pow2 p| / pow2 u = ((|m| * 2 ^ (p - u).toNat : ℤ) : ℚ) := by
      rw [habs, hsplit, pow2_of_nonneg (p - u) (by omega)]
      push_cast
      field_simp
      ring
    have hr : (rne (|(m : ℚ) * pow2 p| / pow2 u) : ℚ) * pow2 u = |(m : ℚ) * pow2 p| := by
      rw [hint, rne_intCast, ← hint]
      field_simp
    unfold rnd
    rw [if_neg h0]
    simp only [← hu_def, hr]
    rw [if_neg (not_le.mpr hq), if_neg ha.ne']
    congr 1
    split_ifs with hneg
    · rw [abs_of_neg hneg]; ring
    · rw [abs_of_nonneg (not_lt.mp hneg)]

/-- A binary64 number is a multiple `m * 2^p` with `|m| < 2^53` and `p >= -1074`. -/
theorem dyadic_of_representable (q : ℚ) (h : Representable q) :
    ∃ m p : ℤ, |m| < 2 ^ 53 ∧ -1074 ≤ p ∧ q = (m : ℚ) * pow2 p := by
  by_cases h0 : q = 0
  · exact ⟨0, 0, by norm_num, by norm_num, by simp [h0]⟩
  · obtain ⟨r, hr0, -, ⟨m, hm0, hrm⟩, hrnd⟩ := rnd_spec q h0
    unfold Representable at h
    rw [hrnd] at h
    have ha : 0 < |q| := abs_pos.mpr h0
    set u := ulpExp |q| with hu_def
    have hpu := pow2_pos u
    have hu1 : -1074 ≤ u := by rw [hu_def]; unfold ulpExp; exact le_max_right _ _
    have hu2 : ilog2 |q| - 52 ≤ u := by rw [hu_def]; unfold ulpExp; exact le_max_left _ _
    have hrq : r = |q| := by
      by_cases c1 : pow2 1024 ≤ r
      · rw [if_pos c1] at h
        split_ifs at h
      · rw [if_neg c1] at h
        by_cases c2 : r = 0
        · rw [if_pos c2] at h
          split_ifs at h
          exact absurd (F64.fin.inj h).symm h0
        · rw [if_neg c2] at h
          have hq := F64.fin.inj h
          by_cases c3 : q < 0
          · rw [if_pos c3] at hq
            rw [abs_of_neg c3]; linarith
          · rw [if_neg c3] at hq
            rw [abs_of_nonneg (not_lt.mp c3)]; exact hq
    have hup : |q| < pow2 (53 + u) :=
      lt_of_lt_of_le (ilog2_spec |q| ha).2 (pow2_le_pow2 (by omega))
    have hm53 : m < 2 ^ 53 := by
      have h53 : pow2 53 = ((2 ^ 53 : ℤ) : ℚ) := by decide!
      rw [← hrq, hrm, pow2_add, h53] at hup
      have := lt_of_mul_lt_mul_right hup hpu.le
      exact_mod_cast this
    rcases lt_or_le q 0 with hneg | hpos
    · refine ⟨-m, u, ?_, hu1, ?_⟩
      · rw [abs_neg, abs_of_nonneg hm0]; exact hm53
      · have h1 : |q| = -q := abs_of_neg hneg
        have h2 : q = -r := by linarith
        push_cast
        rw [h2, hrm]; ring
    · refine ⟨m, u, ?_, hu1, ?_⟩
      · rw [abs_of_nonneg hm0]; exact hm53
      · rw [← hrm, hrq, abs_of_nonneg hpos]

theorem abs_fmodQ_le (x y : ℚ) (hy : 0 < y) : |fmodQ x y| ≤ |x| := by
  rcases le_or_lt 0 x with h | h
  · obtain ⟨k0, -, -⟩ := truncQ_nonneg (x / y) (div_nonneg h hy.le)
    have h1 := (fmodQ_nonneg x y hy h).1
    have hk : (0 : ℚ) ≤ (truncQ (x / y) : ℚ) := by exact_mod_cast k0
    rw [abs_of_nonneg h1, abs_of_nonneg h]
    unfold fmodQ
    nlinarith
  · obtain ⟨k0, -, -⟩ := truncQ_neg (x / y) (div_neg_of_neg_of_pos h hy)
    have h1 := (fmodQ_neg x y hy h).2
    have hk : (truncQ (x / y) : ℚ) ≤ 0 := by exact_mod_cast k0
    rw [abs_of_nonpos h1, abs_of_neg h]
    unfold fmodQ
    nlinarith

end F64

theorem tau_dyadic : tau = (884279719003555 : ℚ) * pow2 (-47) := by
  decide!

namespace F64

/-- The remainder by `2π` of a binary64 number is a binary64 number: `math.Mod`
has nothing to round. -/
theorem fmodQ_representable (x : ℚ) (h : Representable x) : Representable (fmodQ x tau) := by
  obtain ⟨m, p, hm, hp, hx⟩ := dyadic_of_representable x h
  have ht1 := fmodQ_lt x tau tau_pos
  have ht2 := fmodQ_gt x tau tau_pos
  have ht3 := abs_fmodQ_le x tau tau_pos
  have habs8 : |fmodQ x tau| < 8 := by
    rw [abs_lt]; have := tau_lt; constructor <;> linarith
  have h1024 : (8 : ℚ) < pow2 1024 := by
    have h3 : pow2 3 = 8 := by decide!
    rw [← h3]; exact pow2_lt_pow2 (by norm_num)
  have hbig : |fmodQ x tau| < pow2 1024 := lt_trans habs8 h1024
  set k := truncQ (x / tau) with hk
  have htk : fmodQ x tau = x - tau * (k : ℚ) := rfl
  unfold Representable
  rcases le_or_lt (-47) p with hc | hc
  · -- the remainder is a multiple of 2^-47
    have hsplit : pow2 p = pow2 (p + 47) * pow2 (-47) := by
      have h := pow2_add (p + 47) (-47)
      rw [show p + 47 + -47 = p by ring] at h
      exact h
    have hj : fmodQ x tau =
        ((m * 2 ^ (p + 47).toNat - 884279719003555 * k : ℤ) : ℚ) * pow2 (-47) := by
      rw [htk, hx, hsplit, pow2_of_nonneg (p + 47) (by omega), tau_dyadic]
      push_cast; ring
    have hp47 := pow2_pos (-47)
    have hjlt : |(m * 2 ^ (p + 47).toNat - 884279719003555 * k : ℤ)| < 2 ^ 53 := by
      have e1 : |fmodQ x tau| =
          ((|(m * 2 ^ (p + 47).toNat - 884279719003555 * k : ℤ)| : ℤ) : ℚ) * pow2 (-47) := by
        rw [hj, abs_mul, abs_of_pos hp47]; push_cast; rfl
      have e2 : pow2 (-47) = 1 / 140737488355328 := by decide!
      rw [e1, e2] at habs8
      have e3 : ((|(m * 2 ^ (p + 47).toNat - 884279719003555 * k : ℤ)| : ℤ) : ℚ) <
          ((2 ^ 53 : ℤ) : ℚ) := by
        push_cast at habs8 ⊢
        linarith
      exact_mod_cast e3
    rw [hj]
    exact rnd_of_dyadic _ (-47) hjlt (by norm_num) (by rw [← hj]; exact hbig)
  · -- the remainder is a multiple of the unit of `x`
    have hsplit : pow2 (-47) = pow2 (-47 - p) * pow2 p := by
      have h := pow2_add (-47 - p) p
      rw [show -47 - p + p = -47 by ring] at h
      exact h
    have hj : fmodQ x tau =
        ((m - 884279719003555 * 2 ^ (-47 - p).toNat * k : ℤ) : ℚ) * pow2 p := by
      rw [htk, hx, tau_dyadic, hsplit, pow2_of_nonneg (-47 - p) (by omega)]
      push_cast; ring
    have hpp := pow2_pos p
    have hjlt : |(m - 884279719003555 * 2 ^ (-47 - p).toNat * k : ℤ)| < 2 ^ 53 := by
      have e1 : |fmodQ x tau| =
          ((|(m - 884279719003555 * 2 ^ (-47 - p).toNat * k : ℤ)| : ℤ) : ℚ) * pow2 p := by
        rw [hj, abs_mul, abs_of_pos hpp]; push_cast; rfl
      have e2 : |x| = ((|m| : ℤ) : ℚ) * pow2 p := by
        rw [hx, abs_mul, abs_of_pos hpp]; push_cast; rfl
      rw [e1, e2] at ht3
      have e3 := le_of_mul_le_mul_right ht3 hpp
      have e4 : |(m - 884279719003555 * 2 ^ (-47 - p).toNat * k : ℤ)| ≤ |m| := by
        exact_mod_cast e3
      exact lt_of_le_of_lt e4 hm
    rw [hj]
    exact rnd_of_dyadic _ p hjlt hp (by rw [← hj]; exact hbig)

end F64

/-- The invariant after `normalizeRad`: for a finite raw value whose remainder
`t = Mod(raw, 2π)` is non-negative or below `-2^-51`, the result is in `[0, 2π)`. -/
theorem normalizeRad_normalized (x : F64) (hfin : isFinite x = true)
    (ht : F64.le (fin 0) (F64.mod x twoPI) = true ∨
          F64.lt (F64.mod x twoPI) (fin (-(pow2 (-51)))) = true) :
    F64.le (fin 0) (normalizeRad x) = true ∧ F64.lt (normalizeRad x) twoPI = true := by
  obtain ⟨m1, m2⟩ := mod_twoPI_val x hfin
  obtain ⟨n1, n2, n3⟩ := normalizeRad_val x hfin
  have hN0 : F64.le (fin 0) (normalizeRad x) = true ↔ (0 : ℚ) ≤ (normalizeRad x).val :=
    le_iff_val (fin 0) _ rfl n1
  have hN1 : F64.lt (normalizeRad x) twoPI = true ↔ (normalizeRad x).val < tau :=
    lt_iff_val _ twoPI n1 rfl
  have hM0 : F64.le (fin 0) (F64.mod x twoPI) = true ↔ (0 : ℚ) ≤ fmodQ x.val tau := by
    rw [← m2]; exact le_iff_val (fin 0) _ rfl m1
  have hM1 : F64.lt (F64.mod x twoPI) (fin (-(pow2 (-51)))) = true ↔
      fmodQ x.val tau < -(pow2 (-51)) := by
    rw [← m2]; exact lt_iff_val _ (fin (-(pow2 (-51)))) m1 rfl
  rw [hN0, hN1]
  rw [hM0, hM1] at ht
  rcases ht with h | h
  · rw [n2 h]
    exact ⟨h, fmodQ_lt _ _ tau_pos⟩
  · have hp := pow2_pos (-51)
    have hneg : fmodQ x.val tau < 0 := by linarith
    obtain ⟨e1, e2⟩ := n3 hneg
    refine ⟨e2, ?_⟩
    have := (abs_le.mp e1).2
    linarith

namespace F64

theorem eq_iff_val (x y : F64) (hx : isFinite x = true) (hy : isFinite y = true) :
    eq x y = true ↔ x.val = y.val := by
  cases x <;> cases y <;> simp_all [eq, isFinite, val]

/-- Two finite numbers of the same value have difference zero. -/
theorem abs_sub_of_val_eq (x y : F64) (hx : isFinite x = true) (hy : isFinite y = true)
    (h : x.val = y.val) : abs (sub x y) = fin 0 := by
  cases x <;> cases y <;> simp_all [sub, abs, isFinite, val, rnd_zero]

end F64

theorem normalizeRad_fin_val (q : ℚ) :
    val (normalizeRad (fin q)) =
      if fmodQ q tau < 0 then val (rnd (fmodQ q tau + tau)) else fmodQ q tau := by
  rw [normalizeRad_fin]
  split_ifs with h1 h2 h3 <;> simp_all [val]

/-- The value of `normalizeRad` depends on the value of its argument only. -/
theorem normalizeRad_val_congr (x y : F64) (hx : isFinite x = true) (hy : isFinite y = true)
    (h : x.val = y.val) : val (normalizeRad x) = val (normalizeRad y) := by
  have z : val (normalizeRad (fin 0)) = 0 := by
    rw [normalizeRad_fin_val, fmodQ_zero]; simp
  cases x <;> cases y <;> simp_all [isFinite, val, normalizeRad_nzero]

/-- Two dividends that differ by a multiple of `2π` have the same representative in
`[0, 2π)`. -/
theorem canon_eq (r x : ℚ) (k : ℤ) (h : x = r + tau * k) :
    (if fmodQ x tau < 0 then fmodQ x tau + tau else fmodQ x tau) =
      (if fmodQ r tau < 0 then fmodQ r tau + tau else fmodQ r tau) := by
  have hp := tau_pos
  have x1 := fmodQ_lt x tau hp
  have x2 := fmodQ_gt x tau hp
  have r1 := fmodQ_lt r tau hp
  have r2 := fmodQ_gt r tau hp
  have key : ∀ (u v : ℚ) (n : ℤ), 0 ≤ u → u < tau → 0 ≤ v → v < tau →
      u - v = tau * (n : ℚ) → u = v := by
    intro u v n u0 u1 v0 v1 huv
    have h1 : (n : ℚ) < 1 := by
      by_contra hc
      have : tau * 1 ≤ tau * (n : ℚ) := mul_le_mul_of_nonneg_left (not_lt.mp hc) hp.le
      linarith
    have h2 : (-1 : ℚ) < (n : ℚ) := by
      by_contra hc
      have : tau * (n : ℚ) ≤ tau * (-1) := mul_le_mul_of_nonneg_left (not_lt.mp hc) hp.le
      linarith
    have h3 : n < 1 := by exact_mod_cast h1
    have h4 : -1 < n := by exact_mod_cast h2
    have h5 : n = 0 := by omega
    rw [h5] at huv
    simp at huv
    linarith
  have ex : fmodQ x tau = x - tau * ((truncQ (x / tau) : ℤ) : ℚ) := rfl
  have er : fmodQ r tau = r - tau * ((truncQ (r / tau) : ℤ) : ℚ) := rfl
  split_ifs with c1 c2 c2
  · refine key _ _ (k - truncQ (x / tau) + truncQ (r / tau)) (by linarith) (by linarith)
      (by linarith) (by linarith) ?_
    push_cast; rw [ex, er, h]; ring
  · refine key _ _ (k - truncQ (x / tau) + truncQ (r / tau) + 1) (by linarith) (by linarith)
      (by linarith) (by linarith) ?_
    push_cast; rw [ex, er, h]; ring
  · refine key _ _ (k - truncQ (x / tau) + truncQ (r / tau) - 1) (by linarith) (by linarith)
      (by linarith) (by linarith) ?_
    push_cast; rw [ex, er, h]; ring
  · refine key _ _ (k - truncQ (x / tau) + truncQ (r / tau)) (by linarith) (by linarith)
      (by linarith) (by linarith) ?_
    push_cast; rw [ex, er, h]; ring

/-- Exact periodicity: two binary64 arguments that differ by an exact multiple of
the constant `2*PI` are normalised to the same value. -/
theorem normalizeRad_periodic (r x : ℚ) (k : ℤ) (hr : Representable r) (hx : Representable x)
    (h : x = r + tau * k) : val (normalizeRad (fin x)) = val (normalizeRad (fin r)) := by
  have hc := canon_eq r x k h
  have fr := fmodQ_representable r hr
  have fx := fmodQ_representable x hx
  unfold Representable at fr fx
  rw [normalizeRad_fin_val, normalizeRad_fin_val]
  by_cases c1 : fmodQ x tau < 0 <;> by_cases c2 : fmodQ r tau < 0
  · simp only [if_pos c1, if_pos c2] at hc ⊢
    rw [hc]
  · simp only [if_pos c1, if_neg c2] at hc ⊢
    rw [hc, fr]; rfl
  · simp only [if_neg c1, if_pos c2] at hc ⊢
    rw [← hc, fx]; rfl
  · simp only [if_neg c1, if_neg c2] at hc ⊢
    exact hc

namespace F64

/-- A finite sum without overflow is finite and within `2^(k-54)` of the exact sum. -/
theorem add_finite_val (x y : F64) (hx : isFinite x = true) (hy : isFinite y = true)
    (k : ℤ) (hk1 : -1021 ≤ k) (hk2 : k ≤ 1023) (h : |x.val + y.val| < pow2 k) :
    isFinite (add x y) = true ∧ |val (add x y) - (x.val + y.val)| ≤ pow2 (k - 54) := by
  have hp := (pow2_pos (k - 54)).le
  cases x <;> cases y <;> simp [isFinite] at hx hy
  · have := rnd_fin_err _ k hk1 hk2 h
    exact ⟨this.1, this.2.1⟩
  · have := rnd_fin_err _ k hk1 hk2 h
    exact ⟨this.1, this.2.1⟩
  · have := rnd_fin_err _ k hk1 hk2 h
    exact ⟨this.1, this.2.1⟩
  · simpa [add, val, isFinite] using hp

/-- A finite difference without overflow is finite and within `2^(k-54)` of the
exact difference. -/
theorem sub_finite_val (x y : F64) (hx : isFinite x = true) (hy : isFinite y = true)
    (k : ℤ) (hk1 : -1021 ≤ k) (hk2 : k ≤ 1023) (h : |x.val - y.val| < pow2 k) :
    isFinite (sub x y) = true ∧ |val (sub x y) - (x.val - y.val)| ≤ pow2 (k - 54) := by
  have hp := (pow2_pos (k - 54)).le
  cases x <;> cases y <;> simp [isFinite] at hx hy
  · have := rnd_fin_err _ k hk1 hk2 h
    exact ⟨this.1, this.2.1⟩
  · have := rnd_fin_err _ k hk1 hk2 h
    exact ⟨this.1, this.2.1⟩
  · rename_i b
    by_cases hb : b = 0
    · subst hb
      simpa [sub, val, isFinite] using hp
    · have := rnd_fin_err _ k hk1 hk2 h
      simp only [val, zero_sub] at this ⊢
      simp only [sub, if_neg hb]
      exact ⟨this.1, this.2.1⟩
  · have := rnd_fin_err _ k hk1 hk2 h
    exact ⟨this.1, this.2.1⟩

theorem abs_finite_val (x : F64) (hx : isFinite x = true) :
    isFinite (abs x) = true ∧ val (abs x) = |x.val| := by
  cases x <;> simp_all [abs, isFinite, val]

end F64

/-- On a finite number `normalizeRad` subtracts a whole multiple of `2π`, up to
`2^-51`, and lands in `[0, 2π + 2^-51)`. -/
theorem normalizeRad_approx (x : F64) (h : isFinite x = true) :
    isFinite (normalizeRad x) = true ∧ 0 ≤ val (normalizeRad x) ∧
    val (normalizeRad x) < tau + pow2 (-51) ∧
    ∃ k : ℤ, |val (normalizeRad x) - (x.val - tau * (k : ℚ))| ≤ pow2 (-51) := by
  obtain ⟨n1, n2, n3⟩ := normalizeRad_val x h
  have hp := pow2_pos (-51)
  have t1 := fmodQ_lt x.val tau tau_pos
  have ex : fmodQ x.val tau = x.val - tau * ((truncQ (x.val / tau) : ℤ) : ℚ) := rfl
  rcases le_or_lt 0 (fmodQ x.val tau) with c | c
  · have hv := n2 c
    refine ⟨n1, by rw [hv]; exact c, by rw [hv]; linarith, truncQ (x.val / tau), ?_⟩
    rw [hv, ex]; simp; exact hp.le
  · obtain ⟨e1, e2⟩ := n3 c
    have e3 := (abs_le.mp e1).2
    refine ⟨n1, e2, by linarith, truncQ (x.val / tau) - 1, ?_⟩
    have : x.val - tau * ((truncQ (x.val / tau) - 1 : ℤ) : ℚ) = fmodQ x.val tau + tau := by
      rw [ex]; push_cast; ring
    rw [this]; exact e1

theorem tol_eq : tol = fin (4835703278458517 / 4835703278458516698824704) := by
  decide!

/-- Adding and subtracting a moderate operand brings a normalised value that is
away from the seam back to within the tolerance of `Equal`. -/
theorem roundtrip_core (A X : F64) (hA : isFinite A = true) (hX : isFinite X = true)
    (hlo : 1 / 1000000000 ≤ A.val) (hhi : A.val ≤ 25 / 4) (hXb : |X.val| ≤ 1025) :
    Angle.Equal ⟨normalizeRad (F64.sub (normalizeRad (F64.add A X)) X)⟩ ⟨A⟩ = true := by
  have p11 : pow2 11 = 2048 := by decide!
  have pm43 : pow2 (11 - 54) = 1 / 8796093022208 := by decide!
  have pm51 : pow2 (-51) = 1 / 2251799813685248 := by decide!
  have pm40 : pow2 (-40) = 1 / 1099511627776 := by decide!
  have pm94 : pow2 (-40 - 54) = 1 / 19807040628566084398385987584 := by decide!
  have tl := tau_lt
  have tg := tau_gt
  have ab := abs_le.mp hXb
  -- the sum
  have h1 : |A.val + X.val| < pow2 11 := by
    rw [p11, abs_lt]; constructor <;> linarith
  obtain ⟨f1, e1⟩ := add_finite_val A X hA hX 11 (by norm_num) (by norm_num) h1
  rw [pm43] at e1
  -- its normal form
  obtain ⟨f2, n1lo, n1hi, k1, e2⟩ := normalizeRad_approx (F64.add A X) f1
  rw [pm51] at e2 n1hi
  -- the difference
  have h3 : |(normalizeRad (F64.add A X)).val - X.val| < pow2 11 := by
    rw [p11, abs_lt]; constructor <;> linarith
  obtain ⟨f3, e3⟩ := sub_finite_val _ X f2 hX 11 (by norm_num) (by norm_num) h3
  rw [pm43] at e3
  -- its normal form
  obtain ⟨f4, n2lo, n2hi, k2, e4⟩ :=
    normalizeRad_approx (F64.sub (normalizeRad (F64.add A X)) X) f3
  rw [pm51] at e4 n2hi
  generalize hs1 : (F64.add A X).val = s1 at e1 e2
  generalize hn1 : (normalizeRad (F64.add A X)).val = n1 at e2 e3 n1lo n1hi
  generalize hs2 : (F64.sub (normalizeRad (F64.add A X)) X).val = s2 at e3 e4
  generalize hN : normalizeRad (F64.sub (normalizeRad (F64.add A X)) X) = N at f4 e4 n2lo n2hi ⊢
  have a1 := abs_le.mp e1
  have a2 := abs_le.mp e2
  have a3 := abs_le.mp e3
  have a4 := abs_le.mp e4
  -- no whole turn is left over
  have hK : k1 + k2 = 0 := by
    by_contra hne
    rcases lt_or_gt_of_ne hne with h | h
    · have h' : k1 + k2 ≤ -1 := by omega
      have hq : ((k1 + k2 : ℤ) : ℚ) ≤ -1 := by exact_mod_cast h'
      have : tau * ((k1 + k2 : ℤ) : ℚ) ≤ tau * (-1) :=
        mul_le_mul_of_nonneg_left hq tau_pos.le
      push_cast at this
      linarith
    · have h' : 1 ≤ k1 + k2 := by omega
      have hq : (1 : ℚ) ≤ ((k1 + k2 : ℤ) : ℚ) := by exact_mod_cast h'
      have : tau * 1 ≤ tau * ((k1 + k2 : ℤ) : ℚ) :=
        mul_le_mul_of_nonneg_left hq tau_pos.le
      push_cast at this
      linarith
  have hk2 : (k2 : ℚ) = -(k1 : ℚ) := by
    have : ((k1 + k2 : ℤ) : ℚ) = 0 := by rw [hK]; simp
    push_cast at this
    linarith
  rw [hk2] at a4
  have hNlt : N.val < tau := by linarith
  have hNA : |N.val - A.val| < pow2 (-40) := by
    rw [pm40, abs_lt]; constructor <;> linarith
  -- both sides of `Equal` are already normalised
  have rN : normalizeRad N = N :=
    normalizeRad_of_range N ((le_iff_val (fin 0) N rfl f4).mpr n2lo)
      ((lt_iff_val N twoPI f4 rfl).mpr hNlt)
  have rA : normalizeRad A = A :=
    normalizeRad_of_range A ((le_iff_val (fin 0) A rfl hA).mpr (by show (0 : ℚ) ≤ A.val; linarith))
      ((lt_iff_val A twoPI hA rfl).mpr (by show A.val < tau; linarith))
  unfold Angle.Equal
  simp only [rN, rA]
  obtain ⟨f5, e5⟩ := sub_finite_val N A f4 hA (-40) (by norm_num) (by norm_num) hNA
  rw [pm94] at e5
  obtain ⟨f6, e6⟩ := abs_finite_val (F64.sub N A) f5
  rw [tol_eq]
  rw [lt_iff_val _ (fin (4835703278458517 / 4835703278458516698824704)) f6 rfl, e6]
  show |(F64.sub N A).val| < 4835703278458517 / 4835703278458516698824704
  have a5 := abs_le.mp e5
  rw [pm40] at hNA
  have a6 := abs_lt.mp hNA
  rw [abs_lt]
  constructor <;> linarith

namespace F64

theorem finite_of_le_le (c d : ℚ) (x : F64) (h1 : le (fin c) x = true)
    (h2 : le x (fin d) = true) : isFinite x = true ∧ c ≤ x.val ∧ x.val ≤ d := by
  cases x <;> simp_all [le, isFinite, val]

/-- An `int` of magnitude at most 1024 converts to a finite number of magnitude at
most 1025. -/
theorem ofInt_small (n : ℤ) (h1 : -1024 ≤ n) (h2 : n ≤ 1024) :
    isFinite (ofInt n) = true ∧ |(ofInt n).val| ≤ 1025 := by
  have p11 : pow2 11 = 2048 := by decide!
  have pm43 : pow2 (11 - 54) = 1 / 8796093022208 := by decide!
  have q1 : (-1024 : ℚ) ≤ (n : ℚ) := by exact_mod_cast h1
  have q2 : (n : ℚ) ≤ 1024 := by exact_mod_cast h2
  have hn : |(n : ℚ)| < pow2 11 := by
    rw [p11, abs_lt]; constructor <;> linarith
  obtain ⟨f, e, -, -⟩ := rnd_fin_err (n : ℚ) 11 (by norm_num) (by norm_num) hn
  rw [pm43] at e
  have a := abs_le.mp e
  refine ⟨f, ?_⟩
  unfold ofInt
  rw [abs_le]
  constructor <;> linarith

end F64

namespace F64

theorem le_trans3 (x y z : F64) (h1 : le x y = true) (h2 : le y z = true) :
    le x z = true := by
  cases x <;> cases y <;> cases z <;> simp_all [le, val] <;> linarith

/-- Squeezed between two equal numbers: `a <= b <= c` and `c == a` give `b == a`. -/
theorem eq_of_squeeze_left (a b c : F64) (h1 : le a b = true) (h2 : le b c = true)
    (h3 : eq c a = true) : eq b a = true := by
  cases a <;> cases b <;> cases c <;> simp_all [le, eq, val] <;> linarith

/-- Squeezed between two equal numbers: `a <= b <= c` and `a == c` give `b == c`. -/
theorem eq_of_squeeze_right (a b c : F64) (h1 : le a b = true) (h2 : le b c = true)
    (h3 : eq a c = true) : eq b c = true := by
  cases a <;> cases b <;> cases c <;> simp_all [le, eq, val] <;> linarith

theorem lt_nan_left (y : F64) : lt nan y = false := by
  cases y <;> rfl

theorem lt_nan_right (x : F64) : lt x nan = false := by
  cases x <;> rfl

theorem eq_nan_left (y : F64) : eq nan y = false := by
  cases y <;> rfl

end F64

/-- A probe whose normalised value is NaN passes every test of `ContainsAngle`. -/
theorem containsAngle_of_nan (r : AngleRange) (a : Angle)
    (h : F64.isNaN (normalizeRad a.Rad) = true) : r.ContainsAngle a = true := by
  have hx : normalizeRad a.Rad = nan := by
    cases hn : normalizeRad a.Rad <;> simp_all [F64.isNaN]
  unfold AngleRange.ContainsAngle
  simp [hx, F64.gt, F64.lt_nan_left, F64.lt_nan_right, F64.eq_nan_left]

/-- `ContainsAngle` on a non-wrapping range, for a probe whose normalised value is
not NaN. -/
theorem containsAngle_nonwrapping (r : AngleRange) (a : Angle)
    (hse : F64.lt r.Start.Rad r.End.Rad = true)
    (hx : F64.isNaN (normalizeRad a.Rad) = false) :
    r.ContainsAngle a = true ↔
      (F64.le r.Start.Rad (normalizeRad a.Rad) = true ∧
       F64.le (normalizeRad a.Rad) r.End.Rad = true ∧
       (F64.eq (normalizeRad a.Rad) r.Start.Rad = true → r.IncludeStart = true) ∧
       (F64.eq (normalizeRad a.Rad) r.End.Rad = true → r.IncludeEnd = true)) := by
  have hs := F64.lt_isNaN_left _ _ hse
  have he := F64.lt_isNaN_right _ _ hse
  have e1 := F64.lt_false_iff_le (normalizeRad a.Rad) r.Start.Rad hx hs
  have e2 := F64.lt_false_iff_le r.End.Rad (normalizeRad a.Rad) he hx
  unfold AngleRange.ContainsAngle F64.gt
  simp only [hse]
  cases h1 : F64.lt (normalizeRad a.Rad) r.Start.Rad <;>
    cases h2 : F64.lt r.End.Rad (normalizeRad a.Rad) <;>
    cases h3 : F64.eq (normalizeRad a.Rad) r.Start.Rad <;>
    cases h4 : F64.eq (normalizeRad a.Rad) r.End.Rad <;>
    cases h5 : r.IncludeStart <;> cases h6 : r.IncludeEnd <;>
    simp_all

/-- Normalising a finite number that approximates `t` gives a finite number in
`[0, 2π + 2^-51)` that approximates `t` up to a whole multiple of `2π`. -/
theorem normalizeRad_near (Y : F64) (t η : ℚ) (hY : isFinite Y = true)
    (h : |Y.val - t| ≤ η) :
    isFinite (normalizeRad Y) = true ∧ 0 ≤ val (normalizeRad Y) ∧
    val (normalizeRad Y) < tau + pow2 (-51) ∧
    ∃ k : ℤ, |val (normalizeRad Y) - (t - tau * (k : ℚ))| ≤ η + pow2 (-51) := by
  obtain ⟨f, lo, hi, k, e⟩ := normalizeRad_approx Y hY
  refine ⟨f, lo, hi, k, ?_⟩
  have a1 := abs_le.mp h
  have a2 := abs_le.mp e
  rw [abs_le]
  constructor <;> linarith

/-- The length of the arc between two finite endpoints in `[0, 8)`. -/
theorem len_near (s e : F64) (fs : isFinite s = true) (fe : isFinite e = true)
    (bs : 0 ≤ s.val ∧ s.val < 8) (be : 0 ≤ e.val ∧ e.val < 8) :
    isFinite (normalizeRad (F64.sub e s)) = true ∧
    0 ≤ val (normalizeRad (F64.sub e s)) ∧
    val (normalizeRad (F64.sub e s)) < tau + pow2 (-51) ∧
    ∃ k : ℤ, |val (normalizeRad (F64.sub e s)) - (e.val - s.val - tau * (k : ℚ))| ≤
      pow2 (-51) + pow2 (-51) := by
  have p3 : pow2 3 = 8 := by decide!
  have h : |e.val - s.val| < pow2 3 := by
    rw [p3, abs_lt]; constructor <;> linarith [bs.1, bs.2, be.1, be.2]
  obtain ⟨f, err⟩ := sub_finite_val e s fe fs 3 (by norm_num) (by norm_num) h
  exact normalizeRad_near _ _ _ f err

/-- Shifting both endpoints by the same amount, up to small errors and whole turns,
changes the length of an arc that is away from `0` and `2π` by at most `2^-40`. -/
theorem len_shift_core (s e s2 e2 : F64) (c : ℚ)
    (fs : isFinite s = true) (fe : isFinite e = true)
    (fs2 : isFinite s2 = true) (fe2 : isFinite e2 = true)
    (bs : 0 ≤ s.val ∧ s.val < 8) (be : 0 ≤ e.val ∧ e.val < 8)
    (bs2 : 0 ≤ s2.val ∧ s2.val < 8) (be2 : 0 ≤ e2.val ∧ e2.val < 8)
    (hs2 : ∃ k : ℤ, |s2.val - (s.val + c - tau * (k : ℚ))| ≤ 1 / 4398046511104)
    (he2 : ∃ k : ℤ, |e2.val - (e.val + c - tau * (k : ℚ))| ≤ 1 / 4398046511104)
    (hl1 : 1 / 1000000000 ≤ val (normalizeRad (F64.sub e s)))
    (hl2 : val (normalizeRad (F64.sub e s)) ≤ 25 / 4) :
    isFinite (normalizeRad (F64.sub e2 s2)) = true ∧
    |val (normalizeRad (F64.sub e2 s2)) - val (normalizeRad (F64.sub e s))| ≤
      1 / 1099511627776 := by
  have pm51 : pow2 (-51) = 1 / 2251799813685248 := by decide!
  have tl := tau_lt
  have tg := tau_gt
  obtain ⟨-, l0, l1, k0, e0⟩ := len_near s e fs fe bs be
  obtain ⟨f2, m0, m1, k3, e3⟩ := len_near s2 e2 fs2 fe2 bs2 be2
  obtain ⟨k1, e1⟩ := hs2
  obtain ⟨k2, e2'⟩ := he2
  rw [pm51] at e0 e3 l1 m1
  generalize val (normalizeRad (F64.sub e s)) = L at *
  generalize val (normalizeRad (F64.sub e2 s2)) = L2 at *
  have a0 := abs_le.mp e0
  have a1 := abs_le.mp e1
  have a2 := abs_le.mp e2'
  have a3 := abs_le.mp e3
  have hK : k0 + k1 - k2 - k3 = 0 := by
    by_contra hne
    rcases lt_or_gt_of_ne hne with h | h
    · have h' : k0 + k1 - k2 - k3 ≤ -1 := by omega
      have hq : ((k0 + k1 - k2 - k3 : ℤ) : ℚ) ≤ -1 := by exact_mod_cast h'
      have : tau * ((k0 + k1 - k2 - k3 : ℤ) : ℚ) ≤ tau * (-1) :=
        mul_le_mul_of_nonneg_left hq tau_pos.le
      push_cast at this
      linarith
    · have h' : 1 ≤ k0 + k1 - k2 - k3 := by omega
      have hq : (1 : ℚ) ≤ ((k0 + k1 - k2 - k3 : ℤ) : ℚ) := by exact_mod_cast h'
      have : tau * 1 ≤ tau * ((k0 + k1 - k2 - k3 : ℤ) : ℚ) :=
        mul_le_mul_of_nonneg_left hq tau_pos.le
      push_cast at this
      linarith
  have hKq : tau * (k0 : ℚ) + tau * (k1 : ℚ) - tau * (k2 : ℚ) - tau * (k3 : ℚ) = 0 := by
    have : ((k0 + k1 - k2 - k3 : ℤ) : ℚ) = 0 := by rw [hK]; simp
    push_cast at this
    have h2 : tau * ((k0 : ℚ) + (k1 : ℚ) - (k2 : ℚ) - (k3 : ℚ)) = 0 := by rw [this]; simp
    linarith
  refine ⟨f2, ?_⟩
  rw [abs_le]
  constructor <;> linarith

theorem normalized_val (a : Angle) (h : a.Normalized) :
    isFinite a.rad = true ∧ 0 ≤ a.rad.val ∧ a.rad.val < tau := by
  obtain ⟨h1, h2⟩ := h
  cases hr : a.rad <;> simp_all [F64.le, F64.lt, val, twoPI_eq, isFinite]

/-- The endpoint `normalizeRad(A + X)` of a shifted range. -/
theorem shift_add_near (A X : F64) (fA : isFinite A = true) (fX : isFinite X = true)
    (bA : 0 ≤ A.val ∧ A.val < 8) (bX : |X.val| ≤ 1024) :
    isFinite (normalizeRad (F64.add A X)) = true ∧
    (0 ≤ val (normalizeRad (F64.add A X)) ∧ val (normalizeRad (F64.add A X)) < 8) ∧
    ∃ k : ℤ, |val (normalizeRad (F64.add A X)) - (A.val + X.val - tau * (k : ℚ))| ≤
      1 / 4398046511104 := by
  have p11 : pow2 11 = 2048 := by decide!
  have pm43 : pow2 (11 - 54) = 1 / 8796093022208 := by decide!
  have pm51 : pow2 (-51) = 1 / 2251799813685248 := by decide!
  have ab := abs_le.mp bX
  have h : |A.val + X.val| < pow2 11 := by
    rw [p11, abs_lt]; constructor <;> linarith [bA.1, bA.2]
  obtain ⟨f, err⟩ := add_finite_val A X fA fX 11 (by norm_num) (by norm_num) h
  obtain ⟨g, lo, hi, k, e⟩ := normalizeRad_near _ _ _ f err
  rw [pm43, pm51] at e
  rw [pm51] at hi
  have tl := tau_lt
  refine ⟨g, ⟨lo, by linarith⟩, k, le_trans e (by norm_num)⟩

/-- The endpoint `normalizeRad(A - X)` of a shifted range. -/
theorem shift_sub_near (A X : F64) (fA : isFinite A = true) (fX : isFinite X = true)
    (bA : 0 ≤ A.val ∧ A.val < 8) (bX : |X.val| ≤ 1024) :
    isFinite (normalizeRad (F64.sub A X)) = true ∧
    (0 ≤ val (normalizeRad (F64.sub A X)) ∧ val (normalizeRad (F64.sub A X)) < 8) ∧
    ∃ k : ℤ, |val (normalizeRad (F64.sub A X)) - (A.val + -X.val - tau * (k : ℚ))| ≤
      1 / 4398046511104 := by
  have p11 : pow2 11 = 2048 := by decide!
  have pm43 : pow2 (11 - 54) = 1 / 8796093022208 := by decide!
  have pm51 : pow2 (-51) = 1 / 2251799813685248 := by decide!
  have ab := abs_le.mp bX
  have h : |A.val - X.val| < pow2 11 := by
    rw [p11, abs_lt]; constructor <;> linarith [bA.1, bA.2]
  obtain ⟨f, err⟩ := sub_finite_val A X fA fX 11 (by norm_num) (by norm_num) h
  rw [show A.val - X.val = A.val + -X.val by ring] at err
  obtain ⟨g, lo, hi, k, e⟩ := normalizeRad_near _ _ _ f err
  rw [pm43, pm51] at e
  rw [pm51] at hi
  have tl := tau_lt
  refine ⟨g, ⟨lo, by linarith⟩, k, le_trans e (by norm_num)⟩

namespace F64

theorem floor_le_rne (s : ℚ) : ⌊s⌋ ≤ rne s := by
  unfold rne
  simp only
  split_ifs <;> omega

theorem rne_le_floor_succ (s : ℚ) : rne s ≤ ⌊s⌋ + 1 := by
  unfold rne
  simp only
  split_ifs <;> omega

/-- Rounding to the nearest integer is monotone. -/
theorem rne_mono (s t : ℚ) (h : s ≤ t) : rne s ≤ rne t := by
  have hf : ⌊s⌋ ≤ ⌊t⌋ := Int.floor_mono h
  rcases lt_or_eq_of_le hf with hlt | heq
  · have h1 := rne_le_floor_succ s
    have h2 := floor_le_rne t
    omega
  · unfold rne
    simp only
    rw [← heq]
    have hd : s - (⌊s⌋ : ℚ) ≤ t - (⌊s⌋ : ℚ) := by linarith
    split_ifs <;> first | omega | (exfalso; linarith)

theorem ilog2_mono (q1 q2 : ℚ) (h1 : 0 < q1) (h : q1 ≤ q2) : ilog2 q1 ≤ ilog2 q2 := by
  have h2 : 0 < q2 := lt_of_lt_of_le h1 h
  have := ilog2_lt_of_lt q1 h1 (ilog2 q2 + 1) (lt_of_le_of_lt h (ilog2_spec q2 h2).2)
  omega

/-- The rounded magnitude of a positive rational is monotone. -/
theorem rmag_mono (q1 q2 : ℚ) (h1 : 0 < q1) (h : q1 ≤ q2) :
    (rne (q1 / pow2 (ulpExp q1)) : ℚ) * pow2 (ulpExp q1) ≤
      (rne (q2 / pow2 (ulpExp q2)) : ℚ) * pow2 (ulpExp q2) := by
  have h2 : 0 < q2 := lt_of_lt_of_le h1 h
  have hil := ilog2_mono q1 q2 h1 h
  have hu : ulpExp q1 ≤ ulpExp q2 := by unfold ulpExp; omega
  rcases lt_or_eq_of_le hu with hlt | heq
  · -- different binades: a power of two lies between the two results
    have hu2 : ulpExp q2 = ilog2 q2 - 52 := by
      unfold ulpExp at hlt ⊢
      omega
    have hu1 : ilog2 q1 - 52 ≤ ulpExp q1 := by unfold ulpExp; exact le_max_left _ _
    have he : ilog2 q1 + 1 ≤ ilog2 q2 := by omega
    have hp1 := pow2_pos (ulpExp q1)
    have hp2 := pow2_pos (ulpExp q2)
    -- the larger result is at least `2 ^ ilog2 q2`
    have hb2 : pow2 (ilog2 q2) ≤ (rne (q2 / pow2 (ulpExp q2)) : ℚ) * pow2 (ulpExp q2) := by
      have e52 : pow2 (ilog2 q2) = pow2 52 * pow2 (ulpExp q2) := by
        rw [← pow2_add, hu2]; congr 1; ring
      have h52 : pow2 52 = ((2 ^ 52 : ℤ) : ℚ) := by decide!
      have hq : ((2 ^ 52 : ℤ) : ℚ) ≤ q2 / pow2 (ulpExp q2) := by
        rw [le_div_iff₀ hp2, ← h52, ← e52]
        exact (ilog2_spec q2 h2).1
      have := le_rne _ _ hq
      rw [e52, h52]
      exact mul_le_mul_of_nonneg_right (by exact_mod_cast this) hp2.le
    -- the smaller result is at most `2 ^ ilog2 q2`
    have hb1 : (rne (q1 / pow2 (ulpExp q1)) : ℚ) * pow2 (ulpExp q1) ≤ pow2 (ilog2 q2) := by
      have hnn : 0 ≤ ilog2 q2 - ulpExp q1 := by omega
      have esplit : pow2 (ilog2 q2) = pow2 (ilog2 q2 - ulpExp q1) * pow2 (ulpExp q1) := by
        rw [← pow2_add]; congr 1; ring
      have hint := pow2_of_nonneg (ilog2 q2 - ulpExp q1) hnn
      have hq : q1 / pow2 (ulpExp q1) ≤ (((2 : ℤ) ^ (ilog2 q2 - ulpExp q1).toNat : ℤ) : ℚ) := by
        rw [div_le_iff₀ hp1, ← hint, ← esplit]
        exact le_trans (ilog2_spec q1 h1).2.le (pow2_le_pow2 he)
      have := rne_le _ _ hq
      rw [esplit, hint]
      exact mul_le_mul_of_nonneg_right (by exact_mod_cast this) hp1.le
    exact le_trans hb1 hb2
  · rw [heq]
    have hp := pow2_pos (ulpExp q2)
    have hs : q1 / pow2 (ulpExp q2) ≤ q2 / pow2 (ulpExp q2) :=
      div_le_div_of_nonneg_right h hp.le
    have := rne_mono _ _ hs
    exact mul_le_mul_of_nonneg_right (by exact_mod_cast this) hp.le

end F64

namespace F64

/-- The value of a finite rounding of a positive rational. -/
theorem rnd_pos_val (q : ℚ) (hq : 0 < q) (hfin : isFinite (rnd q) = true) :
    val (rnd q) = (rne (q / pow2 (ulpExp q)) : ℚ) * pow2 (ulpExp q) := by
  have hn : ¬ q < 0 := not_lt.mpr hq.le
  unfold rnd at hfin ⊢
  rw [if_neg hq.ne'] at hfin ⊢
  simp only [abs_of_pos hq, if_neg hn] at hfin ⊢
  by_cases c1 : pow2 1024 ≤ (rne (q / pow2 (ulpExp q)) : ℚ) * pow2 (ulpExp q)
  · rw [if_pos c1] at hfin
    simp [isFinite] at hfin
  · rw [if_neg c1]
    by_cases c2 : (rne (q / pow2 (ulpExp q)) : ℚ) * pow2 (ulpExp q) = 0
    · rw [if_pos c2, c2]; rfl
    · rw [if_neg c2]; rfl

/-- Rounding is monotone on the non-negative rationals below `2^k`, and exact up to
`2^(k-54)`. -/
theorem rnd_step (q c : ℚ) (k : ℤ) (hk1 : -1021 ≤ k) (hk2 : k ≤ 1023)
    (h0 : 0 ≤ q) (hqc : q ≤ c) (hc : c < pow2 k) :
    isFinite (rnd q) = true ∧ 0 ≤ val (rnd q) ∧ val (rnd q) ≤ val (rnd c) ∧
    |val (rnd q) - q| ≤ pow2 (k - 54) := by
  have hc0 : 0 ≤ c := le_trans h0 hqc
  have aq : |q| < pow2 k := by rw [abs_of_nonneg h0]; exact lt_of_le_of_lt hqc hc
  have ac : |c| < pow2 k := by rw [abs_of_nonneg hc0]; exact hc
  obtain ⟨f1, e1, s1, -⟩ := rnd_fin_err q k hk1 hk2 aq
  obtain ⟨f2, -, s2, -⟩ := rnd_fin_err c k hk1 hk2 ac
  refine ⟨f1, s1 h0, ?_, e1⟩
  rcases eq_or_lt_of_le h0 with hz | hpos
  · rw [← hz, rnd_zero]
    exact s2 hc0
  · have hcpos : 0 < c := lt_of_lt_of_le hpos hqc
    rw [rnd_pos_val q hpos f1, rnd_pos_val c hcpos f2]
    exact rmag_mono q c hpos hqc

theorem rndS_val (b : Bool) (q : ℚ) :
    val (rndS b q) = val (rnd q) ∧ isFinite (rndS b q) = isFinite (rnd q) := by
  unfold rndS
  by_cases h : q = 0
  · subst h
    rw [if_pos rfl, rnd_zero]
    cases b <;> simp [val, isFinite]
  · rw [if_neg h]
    exact ⟨rfl, rfl⟩

/-- A product of finite numbers is the rounded exact product. -/
theorem mul_finite_val (x y : F64) (hx : isFinite x = true) (hy : isFinite y = true) :
    val (mul x y) = val (rnd (x.val * y.val)) ∧
    isFinite (mul x y) = isFinite (rnd (x.val * y.val)) := by
  have h : mul x y = rndS (xor x.sgn y.sgn) (x.val * y.val) := by
    cases x <;> cases y <;> simp_all [mul, isNaN, isInf, isFinite]
  rw [h]
  exact rndS_val _ _

/-- A quotient of finite numbers, the divisor not zero, is the rounded exact
quotient. -/
theorem div_finite_val (x y : F64) (hx : isFinite x = true) (hy : isFinite y = true)
    (hy0 : y.val ≠ 0) :
    val (div x y) = val (rnd (x.val / y.val)) ∧
    isFinite (div x y) = isFinite (rnd (x.val / y.val)) := by
  have h : div x y = rndS (xor x.sgn y.sgn) (x.val / y.val) := by
    cases x <;> cases y <;> simp_all [div, isNaN, isInf, isFinite, isZero, val]
  rw [h]
  exact rndS_val _ _

/-- The largest `float64` below `360` is `360 - 2^-44`. -/
theorem rep_lt_360 (d : ℚ) (hd : Representable d) (h : d < 360) :
    d ≤ 6333186975989759 / 17592186044416 := by
  rcases le_or_lt d 256 with hs | hbig
  · exact le_trans hs (by norm_num)
  · obtain ⟨m, p, hm, -, hx⟩ := dyadic_of_representable d hd
    have hpp := pow2_pos p
    have hmpos : 0 < m := by
      by_contra hc
      have : (m : ℚ) ≤ 0 := by exact_mod_cast not_lt.mp hc
      have : (m : ℚ) * pow2 p ≤ 0 := mul_nonpos_of_nonpos_of_nonneg this hpp.le
      linarith
    have hm53 : (m : ℚ) < 9007199254740992 := by
      have : m < 2 ^ 53 := lt_of_le_of_lt (le_abs_self m) hm
      exact_mod_cast this
    have hp44 : -44 ≤ p := by
      by_contra hc
      have hle : pow2 p ≤ pow2 (-45) := pow2_le_pow2 (by omega)
      have e45 : pow2 (-45) = 1 / 35184372088832 := by decide!
      rw [e45] at hle
      have : (m : ℚ) * pow2 p ≤ 9007199254740992 * (1 / 35184372088832) :=
        mul_le_mul hm53.le hle hpp.le (by norm_num)
      linarith
    have hsplit : pow2 p = pow2 (p + 44) * pow2 (-44) := by
      have h1 := pow2_add (p + 44) (-44)
      rw [show p + 44 + -44 = p by ring] at h1
      exact h1
    have e44 : pow2 (-44) = 1 / 17592186044416 := by decide!
    have hn : d = ((m * 2 ^ (p + 44).toNat : ℤ) : ℚ) * (1 / 17592186044416) := by
      rw [hx, hsplit, pow2_of_nonneg (p + 44) (by omega), e44]
      push_cast; ring
    have hlt : ((m * 2 ^ (p + 44).toNat : ℤ) : ℚ) < ((6333186975989760 : ℤ) : ℚ) := by
      rw [hn] at h
      push_cast at h ⊢
      linarith
    have hle : m * 2 ^ (p + 44).toNat ≤ 6333186975989759 := by
      have : m * 2 ^ (p + 44).toNat < 6333186975989760 := by exact_mod_cast hlt
      omega
    have hq : ((m * 2 ^ (p + 44).toNat : ℤ) : ℚ) ≤ ((6333186975989759 : ℤ) : ℚ) := by
      exact_mod_cast hle
    rw [hn]
    push_cast at hq ⊢
    linarith

end F64

theorem PI_val : PI.val = 884279719003555 / 281474976710656 := rfl

theorem val_fin (q : ℚ) : (fin q).val = q := rfl

/-- Degrees to radians and back on `[0, 360)`: the result is within `2^-42` of the
argument and does not exceed the largest `float64` below `360`. -/
theorem deg_round_trip (q : ℚ) (h0 : 0 ≤ q) (h1 : q ≤ 6333186975989759 / 17592186044416) :
    isFinite (AngleDeg (fin q)).Deg = true ∧ 0 ≤ (AngleDeg (fin q)).Deg.val ∧
    (AngleDeg (fin q)).Deg.val ≤ 6333186975989759 / 17592186044416 ∧
    |(AngleDeg (fin q)).Deg.val - q| ≤ 1 / 4398046511104 := by
  have p11 : pow2 11 = 2048 := by decide!
  have p3 : pow2 3 = 8 := by decide!
  have p9 : pow2 9 = 512 := by decide!
  have pm43 : pow2 (11 - 54) = 1 / 8796093022208 := by decide!
  have pm51 : pow2 (3 - 54) = 1 / 2251799813685248 := by decide!
  have pm45 : pow2 (9 - 54) = 1 / 35184372088832 := by decide!
  have k1 : rnd (6333186975989759 / 17592186044416 * (884279719003555 / 281474976710656)) =
      fin (1243518354848749 / 1099511627776) := by decide!
  have k2 : rnd (1243518354848749 / 1099511627776 / 180) =
      fin (7074237752028439 / 1125899906842624) := by decide!
  have k3 : rnd (7074237752028439 / 1125899906842624 * 180) =
      fin (1243518354848749 / 1099511627776) := by decide!
  have k4 : rnd (1243518354848749 / 1099511627776 / (884279719003555 / 281474976710656)) =
      fin (6333186975989759 / 17592186044416) := by decide!
  have hDeg0 : (AngleDeg (fin q)).Deg =
      F64.div (F64.mul (normalizeRad (F64.div (F64.mul (fin q) PI) (fin 180))) (fin 180)) PI :=
    rfl
  rw [hDeg0]
  -- d * PI
  obtain ⟨v1, f1⟩ := mul_finite_val (fin q) PI rfl rfl
  rw [PI_val, val_fin] at v1 f1
  obtain ⟨a1, b1, c1, e1⟩ := rnd_step (q * (884279719003555 / 281474976710656))
    (6333186975989759 / 17592186044416 * (884279719003555 / 281474976710656)) 11
    (by norm_num) (by norm_num) (by positivity)
    (mul_le_mul_of_nonneg_right h1 (by norm_num))
    (by rw [p11]; norm_num)
  rw [← f1] at a1
  rw [← v1] at b1 c1 e1
  rw [k1, val_fin] at c1
  rw [pm43] at e1
  generalize F64.mul (fin q) PI = M1 at a1 b1 c1 e1 ⊢
  -- (d * PI) / 180
  obtain ⟨v2, f2⟩ := div_finite_val M1 (fin 180) a1 rfl (by rw [val_fin]; norm_num)
  rw [val_fin] at v2 f2
  obtain ⟨a2, b2, c2, e2⟩ := rnd_step (M1.val / 180)
    (1243518354848749 / 1099511627776 / 180) 3 (by norm_num) (by norm_num)
    (by positivity)
    (div_le_div_of_nonneg_right c1 (by norm_num))
    (by rw [p3]; norm_num)
  rw [← f2] at a2
  rw [← v2] at b2 c2 e2
  rw [k2, val_fin] at c2
  rw [pm51] at e2
  generalize F64.div M1 (fin 180) = X2 at a2 b2 c2 e2 ⊢
  have tg : (7074237752028439 / 1125899906842624 : ℚ) < tau := by unfold tau; norm_num
  have hN : normalizeRad X2 = X2 :=
    normalizeRad_of_range X2 ((le_iff_val (fin 0) X2 rfl a2).mpr b2)
      ((lt_iff_val X2 twoPI a2 rfl).mpr (by show X2.val < tau; linarith))
  rw [hN]
  -- rad * 180
  obtain ⟨v3, f3⟩ := mul_finite_val X2 (fin 180) a2 rfl
  rw [val_fin] at v3 f3
  obtain ⟨a3, b3, c3, e3⟩ := rnd_step (X2.val * 180)
    (7074237752028439 / 1125899906842624 * 180) 11 (by norm_num) (by norm_num)
    (by positivity)
    (mul_le_mul_of_nonneg_right c2 (by norm_num))
    (by rw [p11]; norm_num)
  rw [← f3] at a3
  rw [← v3] at b3 c3 e3
  rw [k3, val_fin] at c3
  rw [pm43] at e3
  generalize F64.mul X2 (fin 180) = M3 at a3 b3 c3 e3 ⊢
  -- (rad * 180) / PI
  obtain ⟨v4, f4⟩ := div_finite_val M3 PI a3 rfl (by rw [PI_val]; norm_num)
  rw [PI_val] at v4 f4
  obtain ⟨a4, b4, c4, e4⟩ := rnd_step (M3.val / (884279719003555 / 281474976710656))
    (1243518354848749 / 1099511627776 / (884279719003555 / 281474976710656)) 9
    (by norm_num) (by norm_num)
    (by positivity)
    (div_le_div_of_nonneg_right c3 (by norm_num))
    (by rw [p9]; norm_num)
  rw [← f4] at a4
  rw [← v4] at b4 c4 e4
  rw [k4, val_fin] at c4
  rw [pm45] at e4
  generalize F64.div M3 PI = D at a4 b4 c4 e4 ⊢
  refine ⟨a4, b4, c4, ?_⟩
  -- the accumulated error
  have hz : M3.val / (884279719003555 / 281474976710656) * (884279719003555 / 281474976710656)
      = M3.val := div_mul_cancel₀ _ (by norm_num)
  have hw : M1.val / 180 * 180 = M1.val := div_mul_cancel₀ _ (by norm_num)
  generalize M3.val / (884279719003555 / 281474976710656) = z at e4 hz
  generalize M1.val / 180 = w at e2 hw
  have x1 := abs_le.mp e1
  have x2 := abs_le.mp e2
  have x3 := abs_le.mp e3
  have x4 := abs_le.mp e4
  rw [abs_le]
  constructor <;> linarith

namespace F64

/-- A finite sum of non-negative value, without overflow, is finite and
non-negative. -/
theorem add_finite_nonneg (x y : F64) (hx : isFinite x = true) (hy : isFinite y = true)
    (k : ℤ) (hk1 : -1021 ≤ k) (hk2 : k ≤ 1023) (h : |x.val + y.val| < pow2 k)
    (h0 : 0 ≤ x.val + y.val) :
    isFinite (add x y) = true ∧ 0 ≤ val (add x y) := by
  cases x <;> cases y <;> simp [isFinite] at hx hy
  · have := rnd_fin_err _ k hk1 hk2 h
    exact ⟨this.1, this.2.2.1 h0⟩
  · have := rnd_fin_err _ k hk1 hk2 h
    exact ⟨this.1, this.2.2.1 h0⟩
  · have := rnd_fin_err _ k hk1 hk2 h
    exact ⟨this.1, this.2.2.1 h0⟩
  · simp [add, val, isFinite]

end F64

/-- A finite raw value that is not negative has a non-negative remainder. -/
theorem rawSafe_of_nonneg (Y : F64) (fY : isFinite Y = true) (h : 0 ≤ Y.val) : RawSafe Y := by
  obtain ⟨m1, m2⟩ := mod_twoPI_val Y fY
  refine ⟨fY, Or.inl ?_⟩
  rw [le_iff_val (fin 0) _ rfl m1, m2]
  exact (fmodQ_nonneg Y.val tau tau_pos h).1

/-- The sum of two normalised values is a raw value that `normalizeRad` brings into
`[0, 2π)`. -/
theorem rawSafe_add_normalized (a x : Angle) (ha : a.Normalized) (hx : x.Normalized) :
    RawSafe (F64.add a.rad x.rad) := by
  obtain ⟨fa, a0, a1⟩ := normalized_val a ha
  obtain ⟨fx, x0, x1⟩ := normalized_val x hx
  have p4 : pow2 4 = 16 := by decide!
  have tl := tau_lt
  have h : |a.rad.val + x.rad.val| < pow2 4 := by
    rw [p4, abs_lt]; constructor <;> linarith
  obtain ⟨f, n⟩ := add_finite_nonneg a.rad x.rad fa fx 4 (by norm_num) (by norm_num) h
    (by linarith)
  exact rawSafe_of_nonneg _ f n

/-! ## Claims -/

/-- C1 (defect): `-2^-60` is a finite `float64` and `AngleRad(-2^-60).Rad()` is exactly
the `float64` constant `2*PI`, the modulus of the normalisation, so it is not
strictly below `2π`: the sum `t + 2*PI` of the negative remainder `t` rounds up to
`2*PI`.  The result is not canonical: normalising it once more gives `0`. -/
theorem C1_AngleRad_reaches_twoPI :
    F64.Representable (-(1 / 1152921504606846976)) ∧
    (AngleRad (fin (-(1 / 1152921504606846976)))).Rad = twoPI ∧
    F64.lt (AngleRad (fin (-(1 / 1152921504606846976)))).Rad twoPI = false ∧
    normalizeRad (AngleRad (fin (-(1 / 1152921504606846976)))).Rad = fin 0 := by
  decide!

/-- C5 (as stated, refuted): on `NewAngleRange(0, PI, true, false)` the probe
`AngleRad(3)` is accepted, because `3 < π`; the claim says it is rejected. -/
theorem C5_counterexample :
    ¬ ((NewAngleRange (.int 0) (.float PI) true false).map
          (fun r => r.ContainsAngle (AngleRad (fin 1))) = some true ∧
       (NewAngleRange (.int 0) (.float PI) true false).map
          (fun r => r.ContainsAngle (AngleRad (fin 3))) = some false) := by
  decide!

/-- C5 (amended): `NewAngleRange(0, PI, true, false)` contains `AngleRad(1)` and
also contains `AngleRad(3)`, since `0 ≤ 3 < π`. -/
theorem C5_contains_one_and_three :
    (NewAngleRange (.int 0) (.float PI) true false).map
        (fun r => r.ContainsAngle (AngleRad (fin 1))) = some true ∧
    (NewAngleRange (.int 0) (.float PI) true false).map
        (fun r => r.ContainsAngle (AngleRad (fin 3))) = some true ∧
    F64.lt (fin 3) PI = true := by
  decide!

/-- C6 (as stated, refuted): `rangeMain` is non-wrapping and accepts the NaN angle
`AngleRad(1).Div(0)`, although `s <= x` is false for `x = NaN`. -/
theorem C6_counterexample :
    NewAngleRange (.int 0) (.float PI) true false = some rangeMain ∧
    F64.lt rangeMain.Start.Rad rangeMain.End.Rad = true ∧
    ¬ (rangeMain.ContainsAngle ((AngleRad (fin 1)).Div (fin 0)) = true ↔
        (F64.le rangeMain.Start.Rad (normalizeRad ((AngleRad (fin 1)).Div (fin 0)).Rad) = true ∧
         F64.le (normalizeRad ((AngleRad (fin 1)).Div (fin 0)).Rad) rangeMain.End.Rad = true ∧
         ¬ (F64.eq (normalizeRad ((AngleRad (fin 1)).Div (fin 0)).Rad) rangeMain.Start.Rad = true ∧
            rangeMain.IncludeStart = false) ∧
         ¬ (F64.eq (normalizeRad ((AngleRad (fin 1)).Div (fin 0)).Rad) rangeMain.End.Rad = true ∧
            rangeMain.IncludeEnd = false))) := by
  decide!

/-- C6 (amended): on a range with `Start.Rad() < End.Rad()` and for an angle `a`
whose `rad` is finite, with `x = normalizeRad(a.Rad())`, `ContainsAngle` is true
exactly when `s <= x`, `x <= e`, not (`x == s` with `IncludeStart` false) and
not (`x == e` with `IncludeEnd` false). -/
theorem C6_nonwrapping_iff (r : AngleRange) (a : Angle)
    (hse : F64.lt r.Start.Rad r.End.Rad = true) (ha : F64.isFinite a.Rad = true) :
    r.ContainsAngle a = true ↔
      (F64.le r.Start.Rad (normalizeRad a.Rad) = true ∧
       F64.le (normalizeRad a.Rad) r.End.Rad = true ∧
       ¬ (F64.eq (normalizeRad a.Rad) r.Start.Rad = true ∧ r.IncludeStart = false) ∧
       ¬ (F64.eq (normalizeRad a.Rad) r.End.Rad = true ∧ r.IncludeEnd = false)) := by
  have hx : F64.isNaN (normalizeRad a.Rad) = false :=
    F64.isNaN_of_isFinite _ (normalizeRad_val a.Rad ha).1
  have hs := F64.lt_isNaN_left _ _ hse
  have he := F64.lt_isNaN_right _ _ hse
  have e1 := F64.lt_false_iff_le (normalizeRad a.Rad) r.Start.Rad hx hs
  have e2 := F64.lt_false_iff_le r.End.Rad (normalizeRad a.Rad) he hx
  unfold AngleRange.ContainsAngle F64.gt
  simp only [hse]
  cases h1 : F64.lt (normalizeRad a.Rad) r.Start.Rad <;>
    cases h2 : F64.lt r.End.Rad (normalizeRad a.Rad) <;>
    cases h3 : F64.eq (normalizeRad a.Rad) r.Start.Rad <;>
    cases h4 : F64.eq (normalizeRad a.Rad) r.End.Rad <;>
    cases h5 : r.IncludeStart <;> cases h6 : r.IncludeEnd <;>
    simp_all

/-- C6 (instances): `rangeMain` is non-wrapping, the probes `AngleRad(0)` and
`AngleRad(PI)` are finite; the first is accepted (inclusive start), the second
rejected (exclusive end). -/
theorem C6_witness :
    F64.lt rangeMain.Start.Rad rangeMain.End.Rad = true ∧
    F64.isFinite (AngleRad (fin 0)).Rad = true ∧
    (rangeMain.ContainsAngle (AngleRad (fin 0)) = true ↔
      (F64.le rangeMain.Start.Rad (normalizeRad (AngleRad (fin 0)).Rad) = true ∧
       F64.le (normalizeRad (AngleRad (fin 0)).Rad) rangeMain.End.Rad = true ∧
       ¬ (F64.eq (normalizeRad (AngleRad (fin 0)).Rad) rangeMain.Start.Rad = true ∧
          rangeMain.IncludeStart = false) ∧
       ¬ (F64.eq (normalizeRad (AngleRad (fin 0)).Rad) rangeMain.End.Rad = true ∧
          rangeMain.IncludeEnd = false))) ∧
    rangeMain.ContainsAngle (AngleRad (fin 0)) = true ∧
    rangeMain.ContainsAngle (AngleRad PI) = false :=
  ⟨by decide!, by decide!,
    C6_nonwrapping_iff rangeMain (AngleRad (fin 0)) (by decide!) (by decide!),
    by decide!, by decide!⟩

/-- C7: on a range with `Start.Rad() >= End.Rad()`, with `x = normalizeRad(a.Rad())`,
`ContainsAngle` is false exactly when (`x == Start.Rad()` and `IncludeStart` is
false) or (`x == End.Rad()` and `IncludeEnd` is false); so it is true whenever both
flags are true, and `NewAngleRange(PI, 0, true, true)` contains every angle. -/
theorem C7_wrapping_iff (r : AngleRange) (a : Angle)
    (hse : F64.ge r.Start.Rad r.End.Rad = true) :
    (r.ContainsAngle a = false ↔
      ((F64.eq (normalizeRad a.Rad) r.Start.Rad = true ∧ r.IncludeStart = false) ∨
       (F64.eq (normalizeRad a.Rad) r.End.Rad = true ∧ r.IncludeEnd = false))) ∧
    (r.IncludeStart = true → r.IncludeEnd = true → r.ContainsAngle a = true) ∧
    (∀ b : Angle, (NewAngleRange (.float PI) (.int 0) true true).map
        (fun w => w.ContainsAngle b) = some true) := by
  have key : ∀ (w : AngleRange) (b : Angle), F64.ge w.Start.Rad w.End.Rad = true →
      (w.ContainsAngle b = false ↔
        ((F64.eq (normalizeRad b.Rad) w.Start.Rad = true ∧ w.IncludeStart = false) ∨
         (F64.eq (normalizeRad b.Rad) w.End.Rad = true ∧ w.IncludeEnd = false))) := by
    intro w b hw
    have hlt : F64.lt w.Start.Rad w.End.Rad = false := F64.lt_false_of_le _ _ hw
    unfold AngleRange.ContainsAngle
    simp only [hlt]
    cases h3 : F64.eq (normalizeRad b.Rad) w.Start.Rad <;>
      cases h4 : F64.eq (normalizeRad b.Rad) w.End.Rad <;>
      cases h5 : w.IncludeStart <;> cases h6 : w.IncludeEnd <;>
      simp_all
  refine ⟨key r a hse, ?_, ?_⟩
  · intro h1 h2
    have := key r a hse
    cases hc : r.ContainsAngle a
    · rw [hc] at this
      rcases this.mp rfl with ⟨-, h⟩ | ⟨-, h⟩
      · rw [h1] at h; cases h
      · rw [h2] at h; cases h
    · rfl
  · intro b
    have hw : NewAngleRange (.float PI) (.int 0) true true = some rangeWrap := rfl
    have hge : F64.ge rangeWrap.Start.Rad rangeWrap.End.Rad = true := by decide!
    have := key rangeWrap b hge
    rw [hw]
    simp only [Option.map_some', Option.some.injEq]
    cases hc : rangeWrap.ContainsAngle b
    · rw [hc] at this
      rcases this.mp rfl with ⟨-, h⟩ | ⟨-, h⟩
      · cases h
      · cases h
    · rfl

/-- C7 (instance): `NewAngleRange(PI, 0, true, true)` is wrapping and accepts the
probe `AngleRad(PI/2)`. -/
theorem C7_witness :
    F64.ge rangeWrap.Start.Rad rangeWrap.End.Rad = true ∧
    rangeWrap.ContainsAngle (AngleRad (F64.div PI (fin 2))) = true :=
  ⟨by decide!,
    (C7_wrapping_iff rangeWrap (AngleRad (F64.div PI (fin 2))) (by decide!)).2.1 rfl rfl⟩

/-- C8 (defect): the range `NewAngleRange(2^-60, 0, true, true)` has both endpoints
in `[0, 2π)` and its `Len()` is exactly the `float64` constant `2*PI`, not a
value below `2π`; the length of `rangeMain` is `PI`. -/
theorem C8_Len_reaches_twoPI :
    F64.Representable (1 / 1152921504606846976) ∧
    (NewAngleRange (.float (fin (1 / 1152921504606846976))) (.int 0) true true).map
        (fun r => decide (r.Start.Normalized ∧ r.End.Normalized)) = some true ∧
    (NewAngleRange (.float (fin (1 / 1152921504606846976))) (.int 0) true true).map
        (fun r => r.Len) = some twoPI ∧
    F64.lt twoPI twoPI = false ∧
    rangeMain.Len = PI := by
  decide!

/-- C9: `Equal` is true exactly when `|normalizeRad(a.rad) - normalizeRad(b.rad)|`
is strictly below the constant `1e-9`; for two angles with `0 <= rad < 2π` that is
`|a.Rad() - b.Rad()| < 1e-9`, and a difference equal to `1e-9` is not `Equal`. -/
theorem C9_Equal_iff (a b : Angle) :
    (a.Equal b = true ↔
      F64.lt (F64.abs (F64.sub (normalizeRad a.rad) (normalizeRad b.rad))) tol = true) ∧
    (a.Normalized → b.Normalized →
      (a.Equal b = true ↔ F64.lt (F64.abs (F64.sub a.Rad b.Rad)) tol = true)) ∧
    (a.Normalized → b.Normalized →
      F64.eq (F64.abs (F64.sub a.Rad b.Rad)) tol = true → a.Equal b = false) := by
  refine ⟨Iff.rfl, ?_, ?_⟩
  · intro ha hb
    unfold Angle.Equal Angle.Rad
    rw [normalizeRad_of_range a.rad ha.1 ha.2, normalizeRad_of_range b.rad hb.1 hb.2]
  · intro ha hb h
    unfold Angle.Equal
    rw [normalizeRad_of_range a.rad ha.1 ha.2, normalizeRad_of_range b.rad hb.1 hb.2]
    exact F64.lt_false_of_eq _ _ h

/-- C9 (instance): the angles of `rad` `1e-9` and `0` are both normalised, differ by
exactly `1e-9`, and are not `Equal`. -/
theorem C9_witness :
    (Angle.mk tol).Normalized ∧ (Angle.mk (fin 0)).Normalized ∧
    F64.eq (F64.abs (F64.sub (Angle.mk tol).Rad (Angle.mk (fin 0)).Rad)) tol = true ∧
    (Angle.mk tol).Equal (Angle.mk (fin 0)) = false :=
  ⟨by decide!, by decide!, by decide!,
    (C9_Equal_iff (Angle.mk tol) (Angle.mk (fin 0))).2.2 (by decide!) (by decide!) (by decide!)⟩

/-- C10 (as stated, refuted): the new endpoints are not always in `[0, 2π)`.  Shifted by
the NaN angle `AngleRad(1).Div(0)`, `rangeMain` gets the endpoint `NaN`; and with
every input normalised, `rangeMain.Sub(AngleRad(2^-60))` gets the `Start` `2*PI`. -/
theorem C10_counterexample :
    (rangeMain.Add ((AngleRad (fin 1)).Div (fin 0))).bind
        (fun l => l.head?.map (fun w => w.Start.rad)) = some nan ∧
    (rangeMain.Add ((AngleRad (fin 1)).Div (fin 0))).bind
        (fun l => l.head?.map (fun w => decide w.Start.Normalized)) = some false ∧
    rangeMain.Start.Normalized ∧ rangeMain.End.Normalized ∧
    (AngleRad (fin (1 / 1152921504606846976))).Normalized ∧
    (rangeMain.Sub (AngleRad (fin (1 / 1152921504606846976)))).bind
        (fun l => l.head?.map (fun w => w.Start.rad)) = some twoPI ∧
    (rangeMain.Sub (AngleRad (fin (1 / 1152921504606846976)))).bind
        (fun l => l.head?.map (fun w => decide w.Start.Normalized)) = some false := by
  decide!

/-- C10 (amended): `r.Add(x)` is a slice of exactly one range, whose `Start` is
`r.Start.Add(x)` and whose `End` is `r.End.Add(x)`, each `normalizeRad` of the raw
sum, with the flags of `r`; `r.Sub(x)` likewise with `Sub`.  A new endpoint is in
`[0, 2π)` when its raw value is finite with a remainder `t >= 0` or `t < -2^-51`,
which is always so for `Add` when the endpoints of `r` and `x` are in `[0, 2π)`;
it is NaN when its raw value is not finite. -/
theorem C10_shift_endpoints (r : AngleRange) (x : Angle) :
    (r.Start.Add (.angle x) = some (AngleRad (F64.add r.Start.rad x.rad)) ∧
     r.End.Add (.angle x) = some (AngleRad (F64.add r.End.rad x.rad)) ∧
     r.Add x = some [{ Start := AngleRad (F64.add r.Start.rad x.rad),
                       End := AngleRad (F64.add r.End.rad x.rad),
                       IncludeStart := r.IncludeStart, IncludeEnd := r.IncludeEnd }] ∧
     (RawSafe (F64.add r.Start.rad x.rad) →
        (AngleRad (F64.add r.Start.rad x.rad)).Normalized) ∧
     (RawSafe (F64.add r.End.rad x.rad) →
        (AngleRad (F64.add r.End.rad x.rad)).Normalized) ∧
     (r.Start.Normalized → r.End.Normalized → x.Normalized →
        (AngleRad (F64.add r.Start.rad x.rad)).Normalized ∧
        (AngleRad (F64.add r.End.rad x.rad)).Normalized) ∧
     (F64.isFinite (F64.add r.Start.rad x.rad) = false →
        (AngleRad (F64.add r.Start.rad x.rad)).rad = nan) ∧
     (F64.isFinite (F64.add r.End.rad x.rad) = false →
        (AngleRad (F64.add r.End.rad x.rad)).rad = nan)) ∧
    (r.Start.Sub (.angle x) = some (AngleRad (F64.sub r.Start.rad x.rad)) ∧
     r.End.Sub (.angle x) = some (AngleRad (F64.sub r.End.rad x.rad)) ∧
     r.Sub x = some [{ Start := AngleRad (F64.sub r.Start.rad x.rad),
                       End := AngleRad (F64.sub r.End.rad x.rad),
                       IncludeStart := r.IncludeStart, IncludeEnd := r.IncludeEnd }] ∧
     (RawSafe (F64.sub r.Start.rad x.rad) →
        (AngleRad (F64.sub r.Start.rad x.rad)).Normalized) ∧
     (RawSafe (F64.sub r.End.rad x.rad) →
        (AngleRad (F64.sub r.End.rad x.rad)).Normalized) ∧
     (F64.isFinite (F64.sub r.Start.rad x.rad) = false →
        (AngleRad (F64.sub r.Start.rad x.rad)).rad = nan) ∧
     (F64.isFinite (F64.sub r.End.rad x.rad) = false →
        (AngleRad (F64.sub r.End.rad x.rad)).rad = nan)) := by
  have safe : ∀ raw : F64, RawSafe raw → (AngleRad raw).Normalized :=
    fun raw h => normalizeRad_normalized raw h.1 h.2
  have bad : ∀ raw : F64, F64.isFinite raw = false → (AngleRad raw).rad = nan :=
    fun raw h => normalizeRad_not_finite raw h
  refine ⟨⟨rfl, rfl, rfl, safe _, safe _, ?_, bad _, bad _⟩,
    ⟨rfl, rfl, rfl, safe _, safe _, bad _, bad _⟩⟩
  intro hs he hx
  exact ⟨safe _ (rawSafe_add_normalized r.Start x hs hx),
    safe _ (rawSafe_add_normalized r.End x he hx)⟩

/-- C10 (instances): the calls of `main`.  `rangeMain` and `AngleDeg(45)` are
normalised, so both endpoints of `r.Add(AngleDeg(45))` are in `[0, 2π)`; the raw
`Start` of `r.Sub(x)` for `x` of `rad` `3.141592` has remainder below `-2^-51`, so
that endpoint is in `[0, 2π)`. -/
theorem C10_witness :
    rangeMain.Start.Normalized ∧ rangeMain.End.Normalized ∧
    (AngleDeg (fin 45)).Normalized ∧
    ((AngleRad (F64.add rangeMain.Start.rad (AngleDeg (fin 45)).rad)).Normalized ∧
     (AngleRad (F64.add rangeMain.End.rad (AngleDeg (fin 45)).rad)).Normalized) ∧
    RawSafe (F64.sub rangeMain.Start.rad angleMain.rad) ∧
    (AngleRad (F64.sub rangeMain.Start.rad angleMain.rad)).Normalized :=
  ⟨by decide!, by decide!, by decide!,
    (C10_shift_endpoints rangeMain (AngleDeg (fin 45))).1.2.2.2.2.2.1
      (by decide!) (by decide!) (by decide!),
    by decide!,
    (C10_shift_endpoints rangeMain angleMain).2.2.2.2.1 (by decide!)⟩

/-- C3 (as stated, refuted): `AngleRad(4)` is a normalised receiver and `2^1023` a
finite factor, yet `AngleRad(4).Mul(2^1023)` has `rad` NaN (the product overflows
to `+Inf`, whose remainder is NaN), which is not in `[0, 2π)`; the same for
`AngleDeg(2^1023)`. -/
theorem C3_counterexample :
    F64.Representable 4 ∧ F64.Representable (pow2 1023) ∧
    (AngleRad (fin 4)).Normalized ∧
    ((AngleRad (fin 4)).Mul (fin (pow2 1023))).rad = nan ∧
    ¬ ((AngleRad (fin 4)).Mul (fin (pow2 1023))).Normalized ∧
    (AngleDeg (fin (pow2 1023))).rad = nan := by
  decide!

/-- C3 (amended): every constructor, mutator and arithmetic operation returns
`normalizeRad` of its raw `float64` value.  When the raw value `x` is finite and its
remainder `t = Mod(x, 2π)` satisfies `t >= 0` or `t < -2^-51`, the result has
`0 <= rad < 2π`; when the raw value is infinite or NaN, `rad` is NaN. -/
theorem C3_invariant (x : F64) (hfin : F64.isFinite x = true)
    (ht : F64.le (fin 0) (F64.mod x twoPI) = true ∨
          F64.lt (F64.mod x twoPI) (fin (-(pow2 (-51)))) = true) :
    (AngleRad x).Normalized ∧
    (∀ a : Angle, (a.SetRad x).Normalized) ∧
    (∀ d : F64, AngleDeg d = AngleRad (F64.div (F64.mul d PI) (fin 180))) ∧
    (∀ (a : Angle) (d : F64), a.SetDeg d = AngleRad (F64.div (F64.mul d PI) (fin 180))) ∧
    (∀ a v : Angle, a.Add (.angle v) = some (AngleRad (F64.add a.rad v.rad)) ∧
      a.Sub (.angle v) = some (AngleRad (F64.sub a.rad v.rad))) ∧
    (∀ (a : Angle) (v : F64), a.Add (.float v) = some (AngleRad (F64.add a.rad v)) ∧
      a.Sub (.float v) = some (AngleRad (F64.sub a.rad v))) ∧
    (∀ (a : Angle) (n : ℤ), a.Add (.int n) = some (AngleRad (F64.add a.rad (F64.ofInt n))) ∧
      a.Sub (.int n) = some (AngleRad (F64.sub a.rad (F64.ofInt n)))) ∧
    (∀ (a : Angle) (k : F64), a.Mul k = AngleRad (F64.mul a.rad k) ∧
      a.Div k = AngleRad (F64.div a.rad k)) ∧
    (∀ y : F64, F64.isFinite y = false → (AngleRad y).rad = nan) :=
  ⟨normalizeRad_normalized x hfin ht, fun _ => normalizeRad_normalized x hfin ht,
    fun _ => rfl, fun _ _ => rfl, fun _ _ => ⟨rfl, rfl⟩, fun _ _ => ⟨rfl, rfl⟩,
    fun _ _ => ⟨rfl, rfl⟩, fun _ _ => ⟨rfl, rfl⟩, fun y hy => normalizeRad_not_finite y hy⟩

/-- C3 (instance): the raw value `-1` is finite with remainder `-1 < -2^-51`, and
`AngleRad(-1)` satisfies the invariant. -/
theorem C3_witness :
    F64.isFinite (fin (-1)) = true ∧
    F64.lt (F64.mod (fin (-1)) twoPI) (fin (-(pow2 (-51)))) = true ∧
    (AngleRad (fin (-1))).Normalized :=
  ⟨rfl, by decide!, (C3_invariant (fin (-1)) rfl (Or.inr (by decide!))).1⟩

/-- C2 (as stated, refuted): with the sum computed in `float64`, `r = 0.1` and
`k = 1` give `AngleRad(r + 2π·k).Rad() != AngleRad(r).Rad()`, and `r = 0.1`,
`k = 2^53` give angles that are not even `Equal` (the sum absorbs `r`). -/
theorem C2_counterexample :
    F64.Representable (3602879701896397 / 36028797018963968) ∧
    F64.eq (AngleRad (F64.add (fin (3602879701896397 / 36028797018963968))
              (F64.mul twoPI (F64.ofInt 1)))).Rad
           (AngleRad (fin (3602879701896397 / 36028797018963968))).Rad = false ∧
    (AngleRad (F64.add (fin (3602879701896397 / 36028797018963968))
        (F64.mul twoPI (F64.ofInt 9007199254740992)))).Equal
      (AngleRad (fin (3602879701896397 / 36028797018963968))) = false := by
  decide!

/-- C2 (amended): for finite `float64` values `r` and `x` such that `x - r` is exactly an
integer multiple of the `float64` constant `2*PI`, `AngleRad(x).Rad() == AngleRad(r).Rad()`
and `AngleRad(x).Equal(AngleRad(r))` is true. -/
theorem C2_periodic (r x : ℚ) (k : ℤ) (hr : F64.Representable r) (hx : F64.Representable x)
    (h : x = r + tau * k) :
    F64.eq (AngleRad (fin x)).Rad (AngleRad (fin r)).Rad = true ∧
    (AngleRad (fin x)).Equal (AngleRad (fin r)) = true := by
  have hv := normalizeRad_periodic r x k hr hx h
  have f1 := (normalizeRad_val (fin x) rfl).1
  have f2 := (normalizeRad_val (fin r) rfl).1
  constructor
  · exact (F64.eq_iff_val _ _ f1 f2).mpr hv
  · unfold Angle.Equal AngleRad
    have g1 := (normalizeRad_val _ f1).1
    have g2 := (normalizeRad_val _ f2).1
    have hv2 := normalizeRad_val_congr _ _ f1 f2 hv
    rw [F64.abs_sub_of_val_eq _ _ g1 g2 hv2]
    decide!

/-- C2 (instance): `3π` and `π` as `float64` constants differ by exactly `2*PI`, so
`AngleRad(3π).Equal(AngleRad(π))` is true. -/
theorem C2_witness :
    F64.Representable (884279719003555 / 281474976710656) ∧
    F64.Representable (2652839157010665 / 281474976710656) ∧
    (2652839157010665 / 281474976710656 : ℚ) =
      884279719003555 / 281474976710656 + tau * ((1 : ℤ) : ℚ) ∧
    (AngleRad (fin (2652839157010665 / 281474976710656))).Equal
      (AngleRad (fin (884279719003555 / 281474976710656))) = true :=
  ⟨by decide!, by decide!, by decide!,
    (C2_periodic (884279719003555 / 281474976710656) (2652839157010665 / 281474976710656) 1
      (by decide!) (by decide!) (by decide!)).2⟩

/-- C4 (as stated, refuted): `AngleRad(0).Add(1000.0).Sub(1000.0)` lands just below
`2π` and is not `Equal` to `AngleRad(0)`; `AngleRad(1).Add(2^53).Sub(2^53)` has lost
the receiver in the sum and is not `Equal` to `AngleRad(1)`. -/
theorem C4_counterexample :
    (((AngleRad (fin 0)).Add (.float (fin 1000))).bind
        (fun b => b.Sub (.float (fin 1000)))).map
      (fun c => c.Equal (AngleRad (fin 0))) = some false ∧
    (((AngleRad (fin 1)).Add (.int 9007199254740992)).bind
        (fun b => b.Sub (.int 9007199254740992))).map
      (fun c => c.Equal (AngleRad (fin 1))) = some false := by
  decide!

/-- C4 (amended): for an angle `a` with `1e-9 <= rad <= 6.25` and an operand `x` (an
`Angle`, a `float64` or an `int`) of magnitude at most 1024,
`a.Add(x).Sub(x).Equal(a)` is true. -/
theorem C4_round_trip (a : Angle) (hlo : F64.le tol a.rad = true)
    (hhi : F64.le a.rad (fin (25 / 4)) = true) :
    (∀ v : Angle, F64.le (fin (-1024)) v.rad = true → F64.le v.rad (fin 1024) = true →
      ((a.Add (.angle v)).bind (fun b => b.Sub (.angle v))).map
        (fun c => c.Equal a) = some true) ∧
    (∀ v : F64, F64.le (fin (-1024)) v = true → F64.le v (fin 1024) = true →
      ((a.Add (.float v)).bind (fun b => b.Sub (.float v))).map
        (fun c => c.Equal a) = some true) ∧
    (∀ n : ℤ, -1024 ≤ n → n ≤ 1024 →
      ((a.Add (.int n)).bind (fun b => b.Sub (.int n))).map
        (fun c => c.Equal a) = some true) := by
  rw [tol_eq] at hlo
  obtain ⟨fa, la, ua⟩ := F64.finite_of_le_le _ _ a.rad hlo hhi
  have la' : (1 : ℚ) / 1000000000 ≤ a.rad.val := by
    refine le_trans ?_ la
    norm_num
  have core : ∀ X : F64, isFinite X = true → |X.val| ≤ 1025 →
      Angle.Equal ⟨normalizeRad (F64.sub (normalizeRad (F64.add a.rad X)) X)⟩ a = true :=
    fun X hX hb => roundtrip_core a.rad X fa hX la' ua hb
  have small : ∀ v : F64, F64.le (fin (-1024)) v = true → F64.le v (fin 1024) = true →
      isFinite v = true ∧ |v.val| ≤ 1025 := by
    intro v h1 h2
    obtain ⟨f, l, u⟩ := F64.finite_of_le_le _ _ v h1 h2
    refine ⟨f, ?_⟩
    rw [abs_le]; constructor <;> linarith
  refine ⟨?_, ?_, ?_⟩
  · intro v h1 h2
    obtain ⟨f, b⟩ := small v.rad h1 h2
    have := core v.rad f b
    simpa [Angle.Add, Angle.Sub, AngleRad] using this
  · intro v h1 h2
    obtain ⟨f, b⟩ := small v h1 h2
    have := core v f b
    simpa [Angle.Add, Angle.Sub, AngleRad] using this
  · intro n h1 h2
    obtain ⟨f, b⟩ := F64.ofInt_small n h1 h2
    have := core (F64.ofInt n) f b
    simpa [Angle.Add, Angle.Sub, AngleRad] using this

/-- C4 (instance): `AngleRad(1)` has `1e-9 <= rad <= 6.25` and
`AngleRad(1).Add(1000.0).Sub(1000.0).Equal(AngleRad(1))` is true. -/
theorem C4_witness :
    F64.le tol (AngleRad (fin 1)).rad = true ∧
    F64.le (AngleRad (fin 1)).rad (fin (25 / 4)) = true ∧
    (((AngleRad (fin 1)).Add (.float (fin 1000))).bind
        (fun b => b.Sub (.float (fin 1000)))).map
      (fun c => c.Equal (AngleRad (fin 1))) = some true :=
  ⟨by decide!, by decide!,
    (C4_round_trip (AngleRad (fin 1)) (by decide!) (by decide!)).2.1 (fin 1000)
      (by decide!) (by decide!)⟩

/-- The constants `PI` and `2*PI` are the untyped `math.Pi` and its double, each
rounded once to `float64`. -/
theorem PI_eq_rnd : F64.rnd piExact = PI ∧ F64.rnd (2 * piExact) = twoPI := by
  decide!

/-- C11: `ContainsRange` is the conjunction of `ContainsAngle` on the two endpoints of
`b` and nothing more: `NewAngleRange(0, π, true, true)` contains the range
`NewAngleRange(3.0, 1.0, true, true)` in that sense, although the latter contains
`AngleRad(4)` and the former does not. -/
theorem C11_endpoint_only :
    (∀ r b : AngleRange,
      r.ContainsRange b = true ↔
        (r.ContainsAngle b.Start = true ∧ r.ContainsAngle b.End = true)) ∧
    NewAngleRange (.int 0) (.float PI) true true = some rangeClosed ∧
    NewAngleRange (.float (fin 3)) (.float (fin 1)) true true = some rangeThreeOne ∧
    rangeClosed.ContainsRange rangeThreeOne = true ∧
    rangeThreeOne.ContainsAngle (AngleRad (fin 4)) = true ∧
    rangeClosed.ContainsAngle (AngleRad (fin 4)) = false := by
  refine ⟨?_, by decide!, by decide!, by decide!, by decide!, by decide!⟩
  intro r b
  unfold AngleRange.ContainsRange
  simp

/-- C12: `Add`, `Sub` and `convertToAngle` panic exactly on an operand that is neither
an `Angle`, a `float64` nor an `int`; `NewAngleRange` panics exactly when one of its
endpoints is such an operand; an `int` `n` is treated as `float64(n)`; an `Angle`
endpoint is stored as given and a numeric endpoint `v` as `AngleRad(v)`. -/
theorem C12_operand_kinds (a : Angle) (x y : Operand) (i1 i2 : Bool) :
    (a.Add x = none ↔ x = .other) ∧
    (a.Sub x = none ↔ x = .other) ∧
    (convertToAngle x = none ↔ x = .other) ∧
    (NewAngleRange x y i1 i2 = none ↔ (x = .other ∨ y = .other)) ∧
    (∀ n : ℤ, a.Add (.int n) = a.Add (.float (F64.ofInt n)) ∧
      a.Sub (.int n) = a.Sub (.float (F64.ofInt n)) ∧
      convertToAngle (.int n) = convertToAngle (.float (F64.ofInt n))) ∧
    (∀ v : Angle, convertToAngle (.angle v) = some v) ∧
    (∀ v : F64, convertToAngle (.float v) = some (AngleRad v)) ∧
    (∀ s e, convertToAngle x = some s → convertToAngle y = some e →
      NewAngleRange x y i1 i2 =
        some { Start := s, End := e, IncludeStart := i1, IncludeEnd := i2 }) := by
  refine ⟨?_, ?_, ?_, ?_, fun n => ⟨rfl, rfl, rfl⟩, fun v => rfl, fun v => rfl, ?_⟩
  · cases x <;> simp [Angle.Add]
  · cases x <;> simp [Angle.Sub]
  · cases x <;> simp [convertToAngle]
  · cases x <;> cases y <;> simp [NewAngleRange, convertToAngle]
  · intro s e hs he
    simp [NewAngleRange, hs, he]

/-- C13: `ContainsAngle` is false exactly when the bounds check rejects, or
`x == Start.Rad()` with `IncludeStart` false, or `x == End.Rad()` with `IncludeEnd`
false, where `==` is the exact comparison of `float64`.  On
`NewAngleRange(0, π, true, false)` the angle `AngleRad(π - 1e-10)` is `Equal` to the
excluded `End` and is contained all the same. -/
theorem C13_exact_endpoints :
    (∀ (r : AngleRange) (a : Angle),
      r.ContainsAngle a = false ↔
        ((F64.lt r.Start.Rad r.End.Rad = true ∧
            (F64.lt (normalizeRad a.Rad) r.Start.Rad = true ∨
             F64.gt (normalizeRad a.Rad) r.End.Rad = true)) ∨
         (F64.eq (normalizeRad a.Rad) r.Start.Rad = true ∧ r.IncludeStart = false) ∨
         (F64.eq (normalizeRad a.Rad) r.End.Rad = true ∧ r.IncludeEnd = false))) ∧
    rangeMain.IncludeEnd = false ∧
    (AngleRad (F64.rnd (piExact - 1 / 10000000000))).Equal rangeMain.End = true ∧
    rangeMain.ContainsAngle (AngleRad (F64.rnd (piExact - 1 / 10000000000))) = true ∧
    F64.eq (normalizeRad (AngleRad (F64.rnd (piExact - 1 / 10000000000))).Rad)
      rangeMain.End.Rad = false := by
  refine ⟨?_, rfl, by decide!, by decide!, by decide!⟩
  intro r a
  unfold AngleRange.ContainsAngle
  cases h0 : F64.lt r.Start.Rad r.End.Rad <;>
    cases h1 : F64.lt (normalizeRad a.Rad) r.Start.Rad <;>
    cases h2 : F64.gt (normalizeRad a.Rad) r.End.Rad <;>
    cases h3 : F64.eq (normalizeRad a.Rad) r.Start.Rad <;>
    cases h4 : F64.eq (normalizeRad a.Rad) r.End.Rad <;>
    cases h5 : r.IncludeStart <;> cases h6 : r.IncludeEnd <;>
    simp_all

/-- C15: `r.String()` is `lb`, `r.Start.String()`, `", "`, `r.End.String()`, `rb` in
that order, with `lb` `"["` or `"("` by `IncludeStart` and `rb` `"]"` or `")"` by
`IncludeEnd`; its first and last characters depend on the two flags only. -/
theorem C15_String (r : AngleRange) :
    r.String =
      (if r.IncludeStart then "[" else "(") ++ r.Start.String ++ ", " ++ r.End.String ++
        (if r.IncludeEnd then "]" else ")") ∧
    r.String.data.head? = some (if r.IncludeStart then '[' else '(') ∧
    r.String.data.getLast? = some (if r.IncludeEnd then ']' else ')') := by
  refine ⟨rfl, ?_, ?_⟩
  · unfold AngleRange.String
    cases r.IncludeStart <;> simp [String.data_append]
  · have h : r.String.data =
        ((if r.IncludeStart then "[" else "(") ++ r.Start.String ++ ", " ++
          r.End.String).data ++ (if r.IncludeEnd then "]" else ")").data := by
      unfold AngleRange.String
      rw [String.data_append]
    rw [h]
    cases r.IncludeEnd
    · exact List.getLast?_concat _
    · exact List.getLast?_concat _

/-- C18: `NewAngleRange(0, π, true, false)` does not contain `AngleRad(4)`, but shifted
by `x = AngleRad(3π/2)` it becomes a wrapping range and contains `AngleRad(4).Add(x)`. -/
theorem C18_shift_changes_containment :
    rangeMain.ContainsAngle (AngleRad (fin 4)) = false ∧
    (rangeMain.Add (AngleRad (F64.rnd (3 * piExact / 2)))).bind
        (fun l => l.head?.map (fun w => F64.ge w.Start.Rad w.End.Rad)) = some true ∧
    (rangeMain.Add (AngleRad (F64.rnd (3 * piExact / 2)))).bind
        (fun l => l.head?.bind (fun w =>
          ((AngleRad (fin 4)).Add (.angle (AngleRad (F64.rnd (3 * piExact / 2))))).map
            (fun a2 => w.ContainsAngle a2))) = some true := by
  decide!

/-- C19: `a = AngleRad(0)` and `b = AngleRad(-1e-10)` have `Rad()` `0` and `2π - 1e-10`:
around the circle they are less than `1e-9` apart (`2π - b.Rad() < 1e-9`), and
`a.Equal(b)` is false. -/
theorem C19_Equal_not_circular :
    (AngleRad (fin 0)).Rad = fin 0 ∧
    (AngleRad (F64.rnd (-(1 / 10000000000)))).Rad =
      F64.add (F64.rnd (-(1 / 10000000000))) twoPI ∧
    F64.lt (F64.sub twoPI (AngleRad (F64.rnd (-(1 / 10000000000)))).Rad) tol = true ∧
    (AngleRad (fin 0)).Equal (AngleRad (F64.rnd (-(1 / 10000000000)))) = false := by
  decide!

/-- C20: `a = AngleRad(3π/2)` satisfies `0 <= rad < 2π`, the factor `2` is not zero,
`a.Mul(2).Div(2)` has `rad` `π/2` and is not `Equal` to `a`. -/
theorem C20_Mul_Div_not_inverse :
    (AngleRad (F64.rnd (3 * piExact / 2))).Normalized ∧
    F64.eq (fin 2) (fin 0) = false ∧
    (((AngleRad (F64.rnd (3 * piExact / 2))).Mul (fin 2)).Div (fin 2)).rad =
      F64.div PI (fin 2) ∧
    (((AngleRad (F64.rnd (3 * piExact / 2))).Mul (fin 2)).Div (fin 2)).Equal
      (AngleRad (F64.rnd (3 * piExact / 2))) = false := by
  decide!

/-- C17: for non-wrapping ranges `r` and `b`, the endpoints of `b` in `[0, 2π)`: if
`r.ContainsRange(b)` then every angle accepted by `b` is accepted by `r`, also at the
endpoints of `r`.  (Nothing is asked of the endpoints of `r` beyond
`Start.Rad() < End.Rad()`.) -/
theorem C17_ContainsRange_sound (r b : AngleRange) (a : Angle)
    (hr : F64.lt r.Start.Rad r.End.Rad = true) (hb : F64.lt b.Start.Rad b.End.Rad = true)
    (hbs : b.Start.Normalized) (hbe : b.End.Normalized)
    (hc : r.ContainsRange b = true) (ha : b.ContainsAngle a = true) :
    r.ContainsAngle a = true := by
  by_cases hx : F64.isNaN (normalizeRad a.Rad) = true
  · exact containsAngle_of_nan r a hx
  · have hx' : F64.isNaN (normalizeRad a.Rad) = false := by
      cases h : F64.isNaN (normalizeRad a.Rad) <;> simp_all
    have ns : normalizeRad b.Start.Rad = b.Start.Rad :=
      normalizeRad_of_range _ hbs.1 hbs.2
    have ne : normalizeRad b.End.Rad = b.End.Rad :=
      normalizeRad_of_range _ hbe.1 hbe.2
    have hsn : F64.isNaN (normalizeRad b.Start.Rad) = false := by
      rw [ns]; exact F64.lt_isNaN_left _ _ hb
    have hen : F64.isNaN (normalizeRad b.End.Rad) = false := by
      rw [ne]; exact F64.lt_isNaN_right _ _ hb
    unfold AngleRange.ContainsRange at hc
    have hc1 : r.ContainsAngle b.Start = true := by
      cases h : r.ContainsAngle b.Start <;> simp_all
    have hc2 : r.ContainsAngle b.End = true := by
      cases h : r.ContainsAngle b.End <;> simp_all
    obtain ⟨s1, -, s3, -⟩ := (containsAngle_nonwrapping r b.Start hr hsn).mp hc1
    obtain ⟨-, t2, -, t4⟩ := (containsAngle_nonwrapping r b.End hr hen).mp hc2
    obtain ⟨u1, u2, -, -⟩ := (containsAngle_nonwrapping b a hb hx').mp ha
    rw [ns] at s1 s3
    rw [ne] at t2 t4
    refine (containsAngle_nonwrapping r a hr hx').mpr ⟨?_, ?_, ?_, ?_⟩
    · exact F64.le_trans3 _ _ _ s1 u1
    · exact F64.le_trans3 _ _ _ u2 t2
    · intro h
      exact s3 (F64.eq_of_squeeze_left _ _ _ s1 u1 h)
    · intro h
      exact t4 (F64.eq_of_squeeze_right _ _ _ u2 t2 h)

/-- C17 (instance): `NewAngleRange(0, π, true, true)` contains the range
`NewAngleRange(1.0, 3.0, true, true)`, which contains `AngleRad(2)`; so does the
former. -/
theorem C17_witness :
    F64.lt rangeClosed.Start.Rad rangeClosed.End.Rad = true ∧
    rangeClosed.ContainsRange
      { Start := AngleRad (fin 1), End := AngleRad (fin 3),
        IncludeStart := true, IncludeEnd := true } = true ∧
    rangeClosed.ContainsAngle (AngleRad (fin 2)) = true :=
  ⟨by decide!, by decide!,
    C17_ContainsRange_sound rangeClosed
      { Start := AngleRad (fin 1), End := AngleRad (fin 3),
        IncludeStart := true, IncludeEnd := true }
      (AngleRad (fin 2)) (by decide!) (by decide!) (by decide!) (by decide!)
      (by decide!) (by decide!)⟩

/-- C16 (as stated, refuted): `NewAngleRange(0.0, 0.1, true, true)` has normalised
endpoints and length `0.1`; shifted by `AngleRad(1)` its length is
`0.10000000000000009`. -/
theorem C16_counterexample :
    NewAngleRange (.float (fin 0)) (.float (fin (3602879701896397 / 36028797018963968)))
      true true = some rangeTenth ∧
    rangeTenth.Start.Normalized ∧ rangeTenth.End.Normalized ∧
    (rangeTenth.Add (AngleRad (fin 1))).bind
      (fun l => l.head?.map (fun w => F64.eq w.Len rangeTenth.Len)) = some false := by
  decide!

/-- C16 (amended): for a range `r` with endpoints in `[0, 2π)` and length between `1e-9`
and `6.25`, and an angle `x` with `|x.rad| <= 1024`, `r.Add(x)` and `r.Sub(x)` are one
range each, whose length is finite and within `2^-40` of `r.Len()`. -/
theorem C16_shift_keeps_length (r : AngleRange) (x : Angle)
    (hs : r.Start.Normalized) (he : r.End.Normalized)
    (hx1 : F64.le (fin (-1024)) x.rad = true) (hx2 : F64.le x.rad (fin 1024) = true)
    (hl1 : F64.le tol r.Len = true) (hl2 : F64.le r.Len (fin (25 / 4)) = true) :
    (∃ w, r.Add x = some [w] ∧ isFinite w.Len = true ∧
      |w.Len.val - r.Len.val| ≤ 1 / 1099511627776) ∧
    (∃ w, r.Sub x = some [w] ∧ isFinite w.Len = true ∧
      |w.Len.val - r.Len.val| ≤ 1 / 1099511627776) := by
  obtain ⟨fs, s0, s1⟩ := normalized_val r.Start hs
  obtain ⟨fe, e0, e1⟩ := normalized_val r.End he
  obtain ⟨fx, x0, x1⟩ := F64.finite_of_le_le _ _ x.rad hx1 hx2
  have bx : |x.rad.val| ≤ 1024 := by
    rw [abs_le]; constructor <;> linarith
  have tl := tau_lt
  have bs : 0 ≤ r.Start.rad.val ∧ r.Start.rad.val < 8 := ⟨s0, by linarith⟩
  have be : 0 ≤ r.End.rad.val ∧ r.End.rad.val < 8 := ⟨e0, by linarith⟩
  rw [tol_eq] at hl1
  obtain ⟨-, l1, l2⟩ := F64.finite_of_le_le _ _ r.Len hl1 hl2
  have l1' : (1 : ℚ) / 1000000000 ≤ r.Len.val := le_trans (by norm_num) l1
  constructor
  · obtain ⟨f1, b1, k1⟩ := shift_add_near r.Start.rad x.rad fs fx bs bx
    obtain ⟨f2, b2, k2⟩ := shift_add_near r.End.rad x.rad fe fx be bx
    exact ⟨_, rfl, len_shift_core r.Start.rad r.End.rad _ _ x.rad.val fs fe f1 f2 bs be b1 b2
      k1 k2 l1' l2⟩
  · obtain ⟨f1, b1, k1⟩ := shift_sub_near r.Start.rad x.rad fs fx bs bx
    obtain ⟨f2, b2, k2⟩ := shift_sub_near r.End.rad x.rad fe fx be bx
    exact ⟨_, rfl, len_shift_core r.Start.rad r.End.rad _ _ (-x.rad.val) fs fe f1 f2 bs be
      b1 b2 k1 k2 l1' l2⟩

/-- C16 (instance): the range `NewAngleRange(0.0, 0.1, true, true)` and the shift
`AngleRad(1)` meet the conditions, and the shifted length is within `2^-40` of `0.1`. -/
theorem C16_witness :
    rangeTenth.Start.Normalized ∧ rangeTenth.End.Normalized ∧
    F64.le tol rangeTenth.Len = true ∧ F64.le rangeTenth.Len (fin (25 / 4)) = true ∧
    (rangeTenth.Add (AngleRad (fin 1))).bind
      (fun l => l.head?.map (fun w =>
        decide (|w.Len.val - rangeTenth.Len.val| ≤ 1 / 1099511627776))) = some true := by
  refine ⟨by decide!, by decide!, by decide!, by decide!, ?_⟩
  obtain ⟨w, hw, -, hb⟩ :=
    (C16_shift_keeps_length rangeTenth (AngleRad (fin 1)) (by decide!) (by decide!)
      (by decide!) (by decide!) (by decide!) (by decide!)).1
  rw [hw]
  simpa using hb

/-- C14 (as stated, refuted): `30` is a `float64` in `[0, 360)` and
`AngleDeg(30).Deg()` is `29.999999999999996`, not `30`. -/
theorem C14_counterexample :
    F64.Representable 30 ∧ F64.le (fin 0) (fin 30) = true ∧ F64.lt (fin 30) (fin 360) = true ∧
    (AngleDeg (fin 30)).Deg = fin (8444249301319679 / 281474976710656) ∧
    F64.eq (AngleDeg (fin 30)).Deg (fin 30) = false := by
  decide!

/-- C14 (amended): `AngleDeg(d)` is `AngleRad(d * PI / 180)`, `Deg()` is
`rad * 180 / PI`, and for every `float64` `d` with `0 <= d < 360` the value
`AngleDeg(d).Deg()` is finite, within `2^-42` of `d` and in `[0, 360)`;
`AngleDeg(180).Rad() == PI`. -/
theorem C14_degrees (d : ℚ) (hd : F64.Representable d) (h0 : 0 ≤ d) (h1 : d < 360) :
    (∀ x : F64, AngleDeg x = AngleRad (F64.div (F64.mul x PI) (fin 180))) ∧
    (∀ a : Angle, a.Deg = F64.div (F64.mul a.rad (fin 180)) PI) ∧
    isFinite (AngleDeg (fin d)).Deg = true ∧
    |(AngleDeg (fin d)).Deg.val - d| ≤ 1 / 4398046511104 ∧
    F64.le (fin 0) (AngleDeg (fin d)).Deg = true ∧
    F64.lt (AngleDeg (fin d)).Deg (fin 360) = true ∧
    (AngleDeg (fin 180)).Rad = PI := by
  obtain ⟨f, lo, hi, err⟩ := deg_round_trip d h0 (F64.rep_lt_360 d hd h1)
  refine ⟨fun _ => rfl, fun _ => rfl, f, err, (le_iff_val (fin 0) _ rfl f).mpr lo,
    (lt_iff_val _ (fin 360) f rfl).mpr ?_, by decide!⟩
  show (AngleDeg (fin d)).Deg.val < 360
  exact lt_of_le_of_lt hi (by norm_num)

/-- C14 (instance): `30` is a `float64` in `[0, 360)`, and `AngleDeg(30).Deg()` is
within `2^-42` of `30`. -/
theorem C14_witness :
    F64.Representable 30 ∧ (0 : ℚ) ≤ 30 ∧ (30 : ℚ) < 360 ∧
    |(AngleDeg (fin 30)).Deg.val - 30| ≤ 1 / 4398046511104 :=
  ⟨by decide!, by norm_num, by norm_num,
    (C14_degrees 30 (by decide!) (by norm_num) (by norm_num)).2.2.2.1⟩

end Lab1
